import Mathlib

/-!
Shallow embedding of the propositional-logic package
(`propositions/syntax.py`, `propositions/semantics.py`,
`propositions/operators.py`).  Strings are modelled as `List Char`;
Python `dict` models are association lists; fallible code
(assertion failures, `KeyError`, the implicit `return None` paths)
is modelled with `Option`.
-/

namespace Props

abbrev Str := List Char

/-- Predicate `is_variable` from syntax.py: first char in `p`..`z`, rest a decimal
digit sequence.  (Python `str.isdecimal` is modelled as ASCII digits;
`is_variable('')` would raise in Python and is `false` here.) -/
def is_variable : Str → Bool
  | [] => false
  | c :: rest => ('p' ≤ c && c ≤ 'z') && (rest.isEmpty || rest.all Char.isDigit)

/-- Predicate `is_constant` from syntax.py. -/
def is_constant (s : Str) : Bool :=
  s == ['T'] || s == ['F']

/-- Predicate `is_unary` from syntax.py. -/
def is_unary (s : Str) : Bool :=
  s == ['~']

/-- Predicate `is_binary` from syntax.py: membership in the set of the seven
binary-operator tokens. -/
def is_binary (s : Str) : Bool :=
  s == ['&'] || s == ['|'] || s == ['-', '>'] || s == ['+'] ||
  s == ['<', '-', '>'] || s == ['-', '&'] || s == ['-', '|']

/-- The raw `Formula` tree: a node's `root` string together with the
children that are present (`first`/`second` in the Python class). -/
inductive Formula where
  | leaf (root : Str)
  | un (root : Str) (first : Formula)
  | bin (root : Str) (first second : Formula)
deriving DecidableEq

namespace Formula

/-- The constructor invariant enforced by the asserts in
`Formula.__init__`: a childless node is a variable or constant, a
one-child node has the unary root, a two-child node a binary root. -/
def wf : Formula → Bool
  | .leaf root => is_variable root || is_constant root
  | .un root first => is_unary root && first.wf
  | .bin root first second => is_binary root && first.wf && second.wf

/-- Method `Formula.__repr__`: the canonical fully-parenthesized infix
rendering. -/
def repr : Formula → Str
  | .leaf root => root
  | .un root first => root ++ first.repr
  | .bin root first second => ['('] ++ first.repr ++ root ++ second.repr ++ [')']

/-- Method `Formula.__eq__`: value equality via the canonical string rendering. -/
def pyEq (f g : Formula) : Bool :=
  f.repr == g.repr

/-- A hash of a string (Python's `hash` on `str` is some fixed pure
function of the character sequence; the exact function is irrelevant). -/
def strHash (s : Str) : Nat :=
  s.foldl (fun h c => h * 31 + c.toNat) 7

/-- Method `Formula.__hash__`: `hash(str(self))`. -/
def pyHash (f : Formula) : Nat :=
  strHash f.repr

/-- Method `Formula.variables` as a list with set-of-strings membership
semantics (variable leaves contribute their root, constants nothing). -/
def varsList : Formula → List Str
  | .leaf root => if is_variable root then [root] else []
  | .un _ first => first.varsList
  | .bin _ first second => first.varsList ++ second.varsList

/-- Method `Formula.operators` as a list with set-of-strings membership
semantics (constants and operators contribute their root, variables
nothing). -/
def operators : Formula → List Str
  | .leaf root => if is_variable root then [] else [root]
  | .un root first => root :: first.operators
  | .bin root first second => root :: (first.operators ++ second.operators)

/-- Method `Formula.polish`: prefix rendering with no parentheses. -/
def polish : Formula → Str
  | .leaf root => root
  | .un root first => root ++ first.polish
  | .bin root first second => root ++ first.polish ++ second.polish

end Formula

/-- The operator-scanning loop in `Formula._parse_prefix`'s `(` case:
try the prefixes of length 3, 2, 1 of the remainder (longest first) and
strip the first one that is a binary operator token. -/
def stripBinOp (r : Str) : Option (Str × Str) :=
  if is_binary (r.take 3) then some (r.take 3, r.drop 3)
  else if is_binary (r.take 2) then some (r.take 2, r.drop 2)
  else if is_binary (r.take 1) then some (r.take 1, r.drop 1)
  else none

/-- Parser `Formula._parse_prefix`, with a fuel argument for structural
termination; `fuel ≥ length of the input` always suffices, and the
wrapper below passes exactly the input length.  Returns the parsed
formula (or `none` on failure) together with the unconsumed remainder
(or the failure message, exactly as in the source). -/
def parsePre : Nat → Str → Option Formula × Str
  | _, [] => (none, "Unexpected end of input".data)
  | 0, _ :: _ => (none, [])
  | fuel + 1, c :: rest =>
    if is_constant [c] then (some (.leaf [c]), rest)
    else if 'p' ≤ c && c ≤ 'z' then
      -- the digit scan; the inner `is_variable` test of the source is
      -- always true here, and on its (unreachable) failure Python falls
      -- through to the unary/parenthesis tests, which also fail for a
      -- character in p..z, producing the final invalid-formula result
      (some (.leaf (c :: rest.takeWhile Char.isDigit)), rest.dropWhile Char.isDigit)
    else if is_unary [c] then
      match parsePre fuel rest with
      | (none, r) => (none, r)
      | (some first, r) => (some (.un [c] first), r)
    else if c = '(' then
      match parsePre fuel rest with
      | (none, r) => (none, r)
      | (some first, remainder) =>
        if remainder = [] then (none, "Expected binary operator".data)
        else
          match stripBinOp remainder with
          | none => (none, "Expected binary operator".data)
          | some (op, remainder2) =>
            match parsePre fuel remainder2 with
            | (none, r) => (none, r)
            | (some second, remainder3) =>
              match remainder3 with
              | ')' :: rest2 => (some (.bin op first second), rest2)
              | _ => (none, "Expected closing parenthesis".data)
    else (none, "Invalid formula".data)

/-- Function `Formula._parse_prefix` at its natural fuel. -/
def parsePrefixFn (s : Str) : Option Formula × Str :=
  parsePre s.length s

/-- Predicate `Formula.is_formula`. -/
def Formula.is_formula (s : Str) : Bool :=
  match parsePrefixFn s with
  | (some _, r) => r == []
  | (none, _) => false

/-- Method `Formula.parse`; `none` models the assertion failure on a string
that is not a formula. -/
def Formula.parse (s : Str) : Option Formula :=
  if Formula.is_formula s then
    match parsePrefixFn s with
    | (some f, r) => if r == [] then some f else none
    | (none, _) => none
  else none

/-- The inner `parse_prefix` of `Formula.parse_polish`, with fuel as
above.  Binary operator tokens are recognised by testing the 2-character
prefix and then the 1-character prefix, exactly as in the source. -/
def parsePol : Nat → Str → Option Formula × Str
  | _, [] => (none, "Unexpected end of input".data)
  | 0, _ :: _ => (none, [])
  | fuel + 1, c :: rest =>
    if is_constant [c] then (some (.leaf [c]), rest)
    else if 'p' ≤ c && c ≤ 'z' then
      -- digit scan as in parsePre; the inner is_variable test is always
      -- true here and its failure would reach the invalid-formula result
      (some (.leaf (c :: rest.takeWhile Char.isDigit)), rest.dropWhile Char.isDigit)
    else if is_unary [c] then
      match parsePol fuel rest with
      | (none, r) => (none, r)
      | (some first, r) => (some (.un [c] first), r)
    else
      match
        (if 2 ≤ (c :: rest).length && is_binary ((c :: rest).take 2) then
          some ((c :: rest).take 2, (c :: rest).drop 2)
        else if is_binary [c] then some ([c], rest)
        else none) with
      | none => (none, "Invalid formula".data)
      | some (op, remainder) =>
        match parsePol fuel remainder with
        | (none, r) => (none, r)
        | (some first, remainder2) =>
          match parsePol fuel remainder2 with
          | (none, r) => (none, r)
          | (some second, remainder3) => (some (.bin op first second), remainder3)

/-- Method `Formula.parse_polish`; `none` models the assertion failure. -/
def Formula.parse_polish (s : Str) : Option Formula :=
  match parsePol s.length s with
  | (some f, r) => if r == [] then some f else none
  | (none, _) => none

/-! ## semantics.py -/

/-- A model (Python `dict` from variable names to booleans), as an
association list with unique keys. -/
abbrev Model := List (Str × Bool)

/-- Python `model[v]` lookup; `none` models a `KeyError`. -/
def mlookup : Model → Str → Option Bool
  | [], _ => none
  | (k, b) :: rest, v => if k == v then some b else mlookup rest v

/-- Predicate `is_model`: every key is a variable name. -/
def is_model (m : Model) : Bool :=
  m.all (fun kv => is_variable kv.1)

/-- Function `evaluate` from semantics.py.  `none` models every failure path: a
missing variable (`KeyError`), a malformed node, and the final
`raise ValueError('Unknown operator')` branch, which is the last `none`
of the binary case. -/
def evaluate : Formula → Model → Option Bool
  | .leaf root, m =>
    if is_constant root then some (root == ['T'])
    else if is_variable root then mlookup m root
    else none
  | .un root first, m =>
    if is_unary root then
      match evaluate first m with
      | some b => some (!b)
      | none => none
    else none
  | .bin root first second, m =>
    if is_binary root then
      match evaluate first m, evaluate second m with
      | some a, some b =>
        if root == ['&'] then some (a && b)
        else if root == ['|'] then some (a || b)
        else if root == ['-', '>'] then some (!a || b)
        else if root == ['+'] then some (a != b)
        else if root == ['<', '-', '>'] then some (a == b)
        else if root == ['-', '&'] then some (!(a && b))
        else if root == ['-', '|'] then some (!(a || b))
        else none
      | _, _ => none
    else none

/-- The value lists of `itertools.product([False, True], repeat=n)`, in
product order: the first position varies slowest, `False` before
`True`. -/
def all_values : Nat → List (List Bool)
  | 0 => [[]]
  | n + 1 =>
    ((all_values n).map (fun vs => false :: vs)) ++
    ((all_values n).map (fun vs => true :: vs))

/-- Function `all_models` from semantics.py: `dict(zip(variables, values))` for
each value tuple.  (The source asserts every entry of `variables` is a
variable name; theorems carry that precondition.) -/
def all_models (vars : List Str) : List Model :=
  (all_values vars.length).map (fun vs => vars.zip vs)

/-- Function `truth_values`: one evaluation per model. -/
def truth_values (f : Formula) (models : List Model) : List (Option Bool) :=
  models.map (fun m => evaluate f m)

/-- Lexicographic strict order on strings (Python `<` on `str`). -/
def strLt : Str → Str → Bool
  | [], [] => false
  | [], _ :: _ => true
  | _ :: _, [] => false
  | a :: as, b :: bs => decide (a < b) || (a == b && strLt as bs)

/-- Lexicographic order on strings (Python `<=` on `str`). -/
def strLe (a b : Str) : Bool :=
  strLt a b || a == b

/-- Ordered insertion for `sortStr`. -/
def insertStr (x : Str) : List Str → List Str
  | [] => [x]
  | y :: ys => if strLe x y then x :: y :: ys else y :: insertStr x ys

/-- Python `sorted` on a list of strings (as an insertion sort; only the
sortedness/permutation behaviour matters). -/
def sortStr : List Str → List Str
  | [] => []
  | x :: xs => insertStr x (sortStr xs)

/-- Python `sorted(formula.variables())`: the sorted list of the distinct
variables of a formula. -/
def sortedVariables (f : Formula) : List Str :=
  sortStr f.varsList.dedup

/-- Predicate `is_contradiction`: no model over the formula's own sorted variables
makes it true. -/
def is_contradiction (f : Formula) : Bool :=
  !((truth_values f (all_models (sortedVariables f))).any (fun ob => ob == some true))

/-- Predicate `is_satisfiable`: some model over the formula's own sorted variables
makes it true. -/
def is_satisfiable (f : Formula) : Bool :=
  (truth_values f (all_models (sortedVariables f))).any (fun ob => ob == some true)

/-- The literal built by `_synthesize_for_model` for one variable:
`model[variable]` is always found because the variable is drawn from the
model's own keys, so the `getD` default is never used. -/
def synthLiteral (m : Model) (v : Str) : Formula :=
  if (mlookup m v).getD false then .leaf v else .un ['~'] (.leaf v)

/-- The clause-collection loops of `synthesize`/`synthesize_cnf`: build
one clause per selected row, propagating any (impossible) failure. -/
def clausesOpt (f : Model × Bool → Option Formula) : List (Model × Bool) → Option (List Formula)
  | [] => some []
  | p :: ps =>
    match f p, clausesOpt f ps with
    | some cl, some cls => some (cl :: cls)
    | _, _ => none

/-- Function `_synthesize_for_model`: conjunction of literals over the sorted
keys; `none` models the assertion failure on an empty model. -/
def synthesizeForModel (m : Model) : Option Formula :=
  match sortStr (m.map Prod.fst) with
  | [] => none
  | k :: ks =>
    some ((ks.map (synthLiteral m)).foldl (fun acc l => .bin ['&'] acc l) (synthLiteral m k))

/-- Function `synthesize` from semantics.py: DNF over the true rows, with the
`(v&~v)` fallback; `none` models the assertion failure on an empty
variable list (and an impossible inner failure). -/
def synthesize (vars : List Str) (values : List Bool) : Option Formula :=
  match vars with
  | [] => none
  | v0 :: _ =>
    match
      clausesOpt (fun p => synthesizeForModel p.1)
        (((all_models vars).zip values).filter (fun p => p.2)) with
    | none => none
    | some [] => some (.bin ['&'] (.leaf v0) (.un ['~'] (.leaf v0)))
    | some (c :: cs) => some (cs.foldl (fun acc cl => .bin ['|'] acc cl) c)

/-- The literal built by `_synthesize_for_all_except_model` (negated
relative to the DNF convention). -/
def synthLiteralNeg (m : Model) (v : Str) : Formula :=
  if (mlookup m v).getD false then .un ['~'] (.leaf v) else .leaf v

/-- Function `_synthesize_for_all_except_model`: disjunction of negated literals
over the sorted keys. -/
def synthesizeForAllExceptModel (m : Model) : Option Formula :=
  match sortStr (m.map Prod.fst) with
  | [] => none
  | k :: ks =>
    some ((ks.map (synthLiteralNeg m)).foldl (fun acc l => .bin ['|'] acc l)
      (synthLiteralNeg m k))

/-- Function `synthesize_cnf` from semantics.py: CNF over the false rows, with
the `(v|~v)` fallback. -/
def synthesize_cnf (vars : List Str) (values : List Bool) : Option Formula :=
  match vars with
  | [] => none
  | v0 :: _ =>
    match
      clausesOpt (fun p => synthesizeForAllExceptModel p.1)
        (((all_models vars).zip values).filter (fun p => !p.2)) with
    | none => none
    | some [] => some (.bin ['|'] (.leaf v0) (.un ['~'] (.leaf v0)))
    | some (c :: cs) => some (cs.foldl (fun acc cl => .bin ['&'] acc cl) c)

/-! ## operators.py -/

/-- Function `to_not_and_or`; `none` models the implicit `return None` paths that
the constructor invariant makes unreachable. -/
def to_not_and_or : Formula → Option Formula
  | .leaf root =>
    if is_constant root then
      if root == ['T'] then
        some (.bin ['|'] (.leaf ['p']) (.un ['~'] (.leaf ['p'])))
      else
        some (.bin ['&'] (.leaf ['p']) (.un ['~'] (.leaf ['p'])))
    else if is_variable root then some (.leaf root)
    else none
  | .un root first =>
    if is_unary root then
      match to_not_and_or first with
      | some f => some (.un ['~'] f)
      | none => none
    else none
  | .bin root f g =>
    if is_binary root then
      match to_not_and_or f, to_not_and_or g with
      | some first, some second =>
        if root == ['&'] then some (.bin ['&'] first second)
        else if root == ['|'] then some (.bin ['|'] first second)
        else if root == ['-', '>'] then some (.bin ['|'] (.un ['~'] first) second)
        else if root == ['+'] then
          some (.bin ['|'] (.bin ['&'] first (.un ['~'] second))
                           (.bin ['&'] (.un ['~'] first) second))
        else if root == ['<', '-', '>'] then
          some (.bin ['|'] (.bin ['&'] first second)
                           (.bin ['&'] (.un ['~'] first) (.un ['~'] second)))
        else if root == ['-', '&'] then some (.un ['~'] (.bin ['&'] first second))
        else if root == ['-', '|'] then some (.un ['~'] (.bin ['|'] first second))
        else none
      | _, _ => none
    else none

/-- The inner `convert` of `to_not_and`: rewrites `T`, `F` and `|` away
from a `{~,&,|}` formula. -/
def convertNA : Formula → Option Formula
  | .leaf root =>
    if is_variable root then some (.leaf root)
    else if is_constant root then
      if root == ['T'] then
        some (.un ['~'] (.bin ['&'] (.leaf ['p']) (.un ['~'] (.leaf ['p']))))
      else
        some (.bin ['&'] (.leaf ['p']) (.un ['~'] (.leaf ['p'])))
    else none
  | .un root first =>
    if is_unary root then
      match convertNA first with
      | some f => some (.un ['~'] f)
      | none => none
    else none
  | .bin root f g =>
    if root == ['&'] then
      match convertNA f, convertNA g with
      | some first, some second => some (.bin ['&'] first second)
      | _, _ => none
    else if root == ['|'] then
      match convertNA f, convertNA g with
      | some first, some second =>
        some (.un ['~'] (.bin ['&'] (.un ['~'] first) (.un ['~'] second)))
      | _, _ => none
    else none

/-- Function `to_not_and`: first `to_not_and_or`, then `convert`. -/
def to_not_and (f : Formula) : Option Formula :=
  match to_not_and_or f with
  | some g => convertNA g
  | none => none

/-- The inner `convert` of `to_nand`: rewrites `~` and `&` of a `{~,&}`
formula into `-&`; any other root (in particular a constant) falls off
the end of the Python function and yields `None`. -/
def convertNand : Formula → Option Formula
  | .leaf root =>
    if is_variable root then some (.leaf root) else none
  | .un root first =>
    if is_unary root then
      match convertNand first with
      | some arg => some (.bin ['-', '&'] arg arg)
      | none => none
    else none
  | .bin root f g =>
    if root == ['&'] then
      match convertNand f, convertNand g with
      | some first, some second =>
        some (.bin ['-', '&'] (.bin ['-', '&'] first second)
                              (.bin ['-', '&'] first second))
      | _, _ => none
    else none

/-- Function `to_nand`: first `to_not_and`, then `convert`. -/
def to_nand (f : Formula) : Option Formula :=
  match to_not_and f with
  | some g => convertNand g
  | none => none

/-- Function `to_implies_not` from operators.py, including its exact (faulty)
encodings of XOR and IFF. -/
def to_implies_not : Formula → Option Formula
  | .leaf root =>
    if is_constant root then
      if root == ['T'] then
        some (.bin ['-', '>'] (.leaf ['p']) (.leaf ['p']))
      else
        some (.un ['~'] (.bin ['-', '>'] (.leaf ['p']) (.leaf ['p'])))
    else if is_variable root then some (.leaf root)
    else none
  | .un root first =>
    if is_unary root then
      match to_implies_not first with
      | some f => some (.un ['~'] f)
      | none => none
    else none
  | .bin root f g =>
    if is_binary root then
      match to_implies_not f, to_implies_not g with
      | some first, some second =>
        if root == ['&'] then
          some (.un ['~'] (.bin ['-', '>'] first (.un ['~'] second)))
        else if root == ['|'] then
          some (.bin ['-', '>'] (.un ['~'] first) second)
        else if root == ['-', '>'] then
          some (.bin ['-', '>'] first second)
        else if root == ['+'] then
          some (.un ['~'] (.bin ['-', '>']
            (.bin ['-', '>'] first (.un ['~'] second))
            (.un ['~'] (.bin ['-', '>'] second (.un ['~'] first)))))
        else if root == ['<', '-', '>'] then
          some (.un ['~'] (.bin ['-', '>']
            (.un ['~'] (.bin ['-', '>'] first second))
            (.un ['~'] (.bin ['-', '>'] second first))))
        else if root == ['-', '&'] then
          some (.bin ['-', '>'] first (.un ['~'] second))
        else if root == ['-', '|'] then
          some (.un ['~'] (.bin ['-', '>'] (.un ['~'] first) second))
        else none
      | _, _ => none
    else none

/-- The inner `convert` of `to_implies_false`: rewrites `~x` into
`(x->F)` in a `{->,~,F}` formula. -/
def convertIF : Formula → Option Formula
  | .leaf root =>
    if is_variable root then some (.leaf root)
    else if root == ['F'] then some (.leaf ['F'])
    else none
  | .un root first =>
    if root == ['~'] then
      match convertIF first with
      | some f => some (.bin ['-', '>'] f (.leaf ['F']))
      | none => none
    else none
  | .bin root f g =>
    if root == ['-', '>'] then
      match convertIF f, convertIF g with
      | some first, some second => some (.bin ['-', '>'] first second)
      | _, _ => none
    else none

/-- Function `to_implies_false`: first `to_implies_not`, then `convert`. -/
def to_implies_false (f : Formula) : Option Formula :=
  match to_implies_not f with
  | some g => convertIF g
  | none => none

/-! ## auxiliary notions used by the theorems -/

/-- A string that does not start with a digit (the contexts in which a
rendered formula is followed by more text without merging tokens). -/
def headNotDigit : Str → Bool
  | [] => true
  | c :: _ => !c.isDigit

/-- No node of the formula has the three-character root token. -/
def Formula.noIff : Formula → Bool
  | .leaf _ => true
  | .un _ first => first.noIff
  | .bin root first second =>
    !(root == ['<', '-', '>']) && first.noIff && second.noIff

/-- Bit `k` of `i` in binary. -/
def natBit (i k : Nat) : Bool :=
  decide (i / 2 ^ k % 2 = 1)

/-- The `n`-bit big-endian binary representation of `i` (most
significant bit first). -/
def natToBits (n i : Nat) : List Bool :=
  (List.range n).map (fun j => natBit i (n - 1 - j))

/-- Two models agree on every variable of a list. -/
def modelsAgree (m m2 : Model) (vs : List Str) : Bool :=
  vs.all (fun v => mlookup m v == mlookup m2 v)

/-! ## basic case lemmas about the token predicates -/

theorem is_constant_cases {s : Str} (h : is_constant s = true) :
    s = ['T'] ∨ s = ['F'] := by
  simpa [is_constant] using h

theorem is_unary_eq {s : Str} (h : is_unary s = true) : s = ['~'] := by
  simpa [is_unary] using h

theorem is_binary_cases {s : Str} (h : is_binary s = true) :
    s = ['&'] ∨ s = ['|'] ∨ s = ['-', '>'] ∨ s = ['+'] ∨
    s = ['<', '-', '>'] ∨ s = ['-', '&'] ∨ s = ['-', '|'] := by
  simpa [is_binary, or_assoc] using h


/-! ## parser facts -/

theorem char_range_not_digit {c : Char} (h : ('p' ≤ c && c ≤ 'z') = true) :
    c.isDigit = false := by
  simp only [Bool.and_eq_true, decide_eq_true_eq] at h
  have h9 : ¬ (c ≤ '9') := fun hc => absurd (le_trans h.1 hc) (by decide)
  have hd : (decide (c.val ≤ 57) : Bool) = false := decide_eq_false h9
  simp [Char.isDigit, hd]

theorem char_range_not_const {c : Char} (h : ('p' ≤ c && c ≤ 'z') = true) :
    is_constant [c] = false := by
  simp only [Bool.and_eq_true, decide_eq_true_eq] at h
  have hT : ¬ (c = 'T') := by rintro rfl; exact absurd h.1 (by decide)
  have hF : ¬ (c = 'F') := by rintro rfl; exact absurd h.1 (by decide)
  simp [is_constant, hT, hF]

theorem is_binary_amp (a : Char) (l : Str) : is_binary ('&' :: a :: l) = false := rfl

theorem is_binary_bar (a : Char) (l : Str) : is_binary ('|' :: a :: l) = false := rfl

theorem is_binary_plus (a : Char) (l : Str) : is_binary ('+' :: a :: l) = false := rfl

theorem is_binary_arrow (a : Char) (l : Str) : is_binary ('-' :: '>' :: a :: l) = false := rfl

theorem is_binary_nandc (a : Char) (l : Str) : is_binary ('-' :: '&' :: a :: l) = false := rfl

theorem is_binary_norc (a : Char) (l : Str) : is_binary ('-' :: '|' :: a :: l) = false := rfl

theorem stripBinOp_op {op : Str} (u : Str) (hop : is_binary op = true) :
    stripBinOp (op ++ u) = some (op, u) := by
  rcases is_binary_cases hop with rfl | rfl | rfl | rfl | rfl | rfl | rfl
  · cases u with
    | nil => rfl
    | cons u0 u1 => rfl
  · cases u with
    | nil => rfl
    | cons u0 u1 => rfl
  · cases u with
    | nil => rfl
    | cons u0 u1 => rfl
  · cases u with
    | nil => rfl
    | cons u0 u1 => rfl
  · rfl
  · cases u with
    | nil => rfl
    | cons u0 u1 => rfl
  · cases u with
    | nil => rfl
    | cons u0 u1 => rfl

theorem stripBinOp_sound {r op r2 : Str} (h : stripBinOp r = some (op, r2)) :
    is_binary op = true ∧ op ++ r2 = r := by
  unfold stripBinOp at h
  split_ifs at h with h3 h2 h1
  · obtain ⟨rfl, rfl⟩ : op = r.take 3 ∧ r2 = r.drop 3 := by
      constructor <;> simp_all
    exact ⟨h3, List.take_append_drop 3 r⟩
  · obtain ⟨rfl, rfl⟩ : op = r.take 2 ∧ r2 = r.drop 2 := by
      constructor <;> simp_all
    exact ⟨h2, List.take_append_drop 2 r⟩
  · obtain ⟨rfl, rfl⟩ : op = r.take 1 ∧ r2 = r.drop 1 := by
      constructor <;> simp_all
    exact ⟨h1, List.take_append_drop 1 r⟩

theorem parsePre_at_T (m : Nat) (R : Str) :
    parsePre (m + 1) ('T' :: R) = (some (.leaf ['T']), R) := rfl

theorem parsePre_at_F (m : Nat) (R : Str) :
    parsePre (m + 1) ('F' :: R) = (some (.leaf ['F']), R) := rfl

theorem parsePre_at_tilde (m : Nat) (R : Str) :
    parsePre (m + 1) ('~' :: R) =
      (match parsePre m R with
       | (none, r) => (none, r)
       | (some first, r) => (some (.un ['~'] first), r)) := rfl

theorem parsePre_at_paren (m : Nat) (R : Str) :
    parsePre (m + 1) ('(' :: R) =
      (match parsePre m R with
       | (none, r) => (none, r)
       | (some first, remainder) =>
         if remainder = [] then (none, "Expected binary operator".data)
         else
           match stripBinOp remainder with
           | none => (none, "Expected binary operator".data)
           | some (op, remainder2) =>
             match parsePre m remainder2 with
             | (none, r) => (none, r)
             | (some second, remainder3) =>
               match remainder3 with
               | ')' :: rest2 => (some (.bin op first second), rest2)
               | _ => (none, "Expected closing parenthesis".data)) := rfl

theorem parsePre_at_var {c : Char} (h : ('p' ≤ c && c ≤ 'z') = true) (m : Nat) (R : Str) :
    parsePre (m + 1) (c :: R) =
      (some (.leaf (c :: R.takeWhile Char.isDigit)), R.dropWhile Char.isDigit) := by
  simp [parsePre, char_range_not_const h, h]

theorem takeWhile_digits {ds t : Str} (hds : ds.all Char.isDigit = true)
    (ht : headNotDigit t = true) : (ds ++ t).takeWhile Char.isDigit = ds := by
  induction ds with
  | nil =>
    cases t with
    | nil => rfl
    | cons c t2 =>
      simp only [headNotDigit, Bool.not_eq_true'] at ht
      simp [List.takeWhile_cons, ht]
  | cons d ds2 ih =>
    simp only [List.all_cons, Bool.and_eq_true] at hds
    simp [List.takeWhile_cons, hds.1, ih hds.2]

theorem dropWhile_digits {ds t : Str} (hds : ds.all Char.isDigit = true)
    (ht : headNotDigit t = true) : (ds ++ t).dropWhile Char.isDigit = t := by
  induction ds with
  | nil =>
    cases t with
    | nil => rfl
    | cons c t2 =>
      simp only [headNotDigit, Bool.not_eq_true'] at ht
      simp [List.dropWhile_cons, ht]
  | cons d ds2 ih =>
    simp only [List.all_cons, Bool.and_eq_true] at hds
    simp [List.dropWhile_cons, hds.1, ih hds.2]

theorem binop_headNotDigit {op : Str} (x : Str) (h : is_binary op = true) :
    headNotDigit (op ++ x) = true := by
  rcases is_binary_cases h with rfl | rfl | rfl | rfl | rfl | rfl | rfl <;> rfl

theorem is_binary_length {op : Str} (h : is_binary op = true) : 1 ≤ op.length := by
  rcases is_binary_cases h with rfl | rfl | rfl | rfl | rfl | rfl | rfl <;> simp

theorem parsePre_paren_success {m : Nat} {R R2 R3 : Str} {f1 f2 : Formula} {op : Str}
    (h1 : parsePre m R = (some f1, op ++ R2))
    (hop : is_binary op = true)
    (h2 : parsePre m R2 = (some f2, ')' :: R3)) :
    parsePre (m + 1) ('(' :: R) = (some (.bin op f1 f2), R3) := by
  rw [parsePre_at_paren]
  split
  · rename_i r heq
    rw [h1] at heq
    exact absurd heq (by simp)
  · rename_i first remainder heq
    rw [h1] at heq
    obtain ⟨rfl, rfl⟩ : first = f1 ∧ remainder = op ++ R2 := by
      constructor <;> simp_all
    have hne : ¬ (op ++ R2 = []) := by
      rcases is_binary_cases hop with rfl | rfl | rfl | rfl | rfl | rfl | rfl <;> simp
    rw [if_neg hne, stripBinOp_op R2 hop]
    simp only []
    rw [h2]
    rfl

theorem parsePre_tilde_success {m : Nat} {R r : Str} {f1 : Formula}
    (h1 : parsePre m R = (some f1, r)) :
    parsePre (m + 1) ('~' :: R) = (some (.un ['~'] f1), r) := by
  rw [parsePre_at_tilde]
  split
  · rename_i r2 heq
    rw [h1] at heq
    exact absurd heq (by simp)
  · rename_i first r2 heq
    rw [h1] at heq
    obtain ⟨rfl, rfl⟩ : first = f1 ∧ r2 = r := by constructor <;> simp_all
    rfl

/-- Completeness of `_parse_prefix`: rendering a well-formed formula and
appending any text that does not start with a digit parses back to the
same formula with that text as remainder. -/
theorem parsePre_complete (f : Formula) (hwf : f.wf = true) :
    ∀ (t : Str) (fuel : Nat), (f.repr ++ t).length ≤ fuel →
      headNotDigit t = true → parsePre fuel (f.repr ++ t) = (some f, t) := by
  induction f with
  | leaf root =>
    intro t fuel hlen ht
    simp only [Formula.wf, Bool.or_eq_true] at hwf
    by_cases hc : is_constant root = true
    · rcases is_constant_cases hc with rfl | rfl
      · obtain ⟨m, rfl⟩ : ∃ m, fuel = m + 1 := by
          cases fuel with
          | zero => simp [Formula.repr] at hlen
          | succ m => exact ⟨m, rfl⟩
        simpa [Formula.repr] using parsePre_at_T m t
      · obtain ⟨m, rfl⟩ : ∃ m, fuel = m + 1 := by
          cases fuel with
          | zero => simp [Formula.repr] at hlen
          | succ m => exact ⟨m, rfl⟩
        simpa [Formula.repr] using parsePre_at_F m t
    · have hv : is_variable root = true := by
        rcases hwf with h | h
        · exact h
        · exact absurd h hc
      cases root with
      | nil => simp [is_variable] at hv
      | cons c ds =>
        simp only [is_variable] at hv
        rw [Bool.and_eq_true] at hv
        obtain ⟨m, rfl⟩ : ∃ m, fuel = m + 1 := by
          cases fuel with
          | zero => simp [Formula.repr] at hlen
          | succ m => exact ⟨m, rfl⟩
        have hds : ds.all Char.isDigit = true := by
          cases ds with
          | nil => rfl
          | cons d ds2 => simpa using hv.2
        have heq : (Formula.repr (.leaf (c :: ds))) ++ t = c :: (ds ++ t) := by
          simp [Formula.repr]
        rw [heq, parsePre_at_var hv.1 m (ds ++ t), takeWhile_digits hds ht,
          dropWhile_digits hds ht]
  | un root first ih =>
    intro t fuel hlen ht
    simp only [Formula.wf, Bool.and_eq_true] at hwf
    obtain ⟨hu, hwf1⟩ := hwf
    have hr := is_unary_eq hu
    subst hr
    obtain ⟨m, rfl⟩ : ∃ m, fuel = m + 1 := by
      cases fuel with
      | zero => simp [Formula.repr] at hlen
      | succ m => exact ⟨m, rfl⟩
    have heq : Formula.repr (.un ['~'] first) ++ t = '~' :: (first.repr ++ t) := by
      simp [Formula.repr]
    have hlen1 : (first.repr ++ t).length ≤ m := by
      rw [heq] at hlen
      simpa using hlen
    rw [heq, parsePre_tilde_success (ih hwf1 t m hlen1 ht)]
  | bin root f1 f2 ih1 ih2 =>
    intro t fuel hlen ht
    simp only [Formula.wf, Bool.and_eq_true] at hwf
    obtain ⟨⟨hb, hwf1⟩, hwf2⟩ := hwf
    obtain ⟨m, rfl⟩ : ∃ m, fuel = m + 1 := by
      cases fuel with
      | zero => simp [Formula.repr] at hlen
      | succ m => exact ⟨m, rfl⟩
    have heq : Formula.repr (.bin root f1 f2) ++ t
        = '(' :: (f1.repr ++ (root ++ (f2.repr ++ (')' :: t)))) := by
      simp [Formula.repr]
    rw [heq] at hlen ⊢
    have hrlen := is_binary_length hb
    have hlen1 : (f1.repr ++ (root ++ (f2.repr ++ (')' :: t)))).length ≤ m := by
      simp at hlen ⊢
      omega
    have hlen2 : (f2.repr ++ (')' :: t)).length ≤ m := by
      simp at hlen ⊢
      omega
    have h1 := ih1 hwf1 (root ++ (f2.repr ++ (')' :: t))) m hlen1
      (binop_headNotDigit _ hb)
    have h2 := ih2 hwf2 (')' :: t) m hlen2 rfl
    exact parsePre_paren_success h1 hb h2

/-- Soundness of `_parse_prefix`: a successful parse yields a
well-formed formula whose rendering plus the remainder is the input. -/
theorem parsePre_sound :
    ∀ (fuel : Nat) (s : Str) (f : Formula) (r : Str),
      s.length ≤ fuel → parsePre fuel s = (some f, r) →
      f.wf = true ∧ f.repr ++ r = s := by
  intro fuel
  induction fuel with
  | zero =>
    intro s f r hlen hp
    cases s with
    | nil => simp [parsePre] at hp
    | cons c rest => simp at hlen
  | succ m ih =>
    intro s f r hlen hp
    cases s with
    | nil => simp [parsePre] at hp
    | cons c rest =>
      by_cases h1 : is_constant [c] = true
      · simp only [parsePre, h1, if_true] at hp
        obtain ⟨rfl, rfl⟩ : Formula.leaf [c] = f ∧ rest = r := by
          constructor <;> simp_all
        exact ⟨by simp [Formula.wf, h1], by simp [Formula.repr]⟩
      · by_cases h2 : ('p' ≤ c && c ≤ 'z') = true
        · simp only [parsePre, h1, h2, if_false, if_true] at hp
          obtain ⟨rfl, rfl⟩ :
              Formula.leaf (c :: rest.takeWhile Char.isDigit) = f ∧
                rest.dropWhile Char.isDigit = r := by
            constructor <;> simp_all
          constructor
          · have hvar : is_variable (c :: rest.takeWhile Char.isDigit) = true := by
              simp only [is_variable]
              rw [Bool.and_eq_true]
              refine ⟨h2, ?_⟩
              simp [List.all_takeWhile]
            simp [Formula.wf, hvar]
          · simp [Formula.repr, List.takeWhile_append_dropWhile]
        · by_cases h3 : is_unary [c] = true
          · obtain rfl : c = '~' := by simpa using is_unary_eq h3
            simp only [parsePre, h1, h2, h3, if_false, if_true] at hp
            rcases hpp : parsePre m rest with ⟨of, r2⟩
            rw [hpp] at hp
            cases of with
            | none => simp at hp
            | some f1 =>
              simp only [] at hp
              obtain ⟨rfl, rfl⟩ : Formula.un ['~'] f1 = f ∧ r2 = r := by
                constructor <;> simp_all
              obtain ⟨hwf1, hrepr1⟩ :=
                ih rest f1 r2 (by simpa using Nat.le_of_succ_le_succ hlen) hpp
              refine ⟨by simp [Formula.wf, is_unary, hwf1], ?_⟩
              simp [Formula.repr, hrepr1]
          · by_cases h4 : c = '('
            · subst h4
              simp only [parsePre, h1, h2, h3, if_false, if_true] at hp
              rcases hpp : parsePre m rest with ⟨of1, rem1⟩
              rw [hpp] at hp
              cases of1 with
              | none => simp at hp
              | some f1 =>
                simp only [] at hp
                by_cases h5 : rem1 = []
                · rw [if_pos h5] at hp
                  simp at hp
                · rw [if_neg h5] at hp
                  rcases hso : stripBinOp rem1 with _ | ⟨op, rem2⟩
                  · rw [hso] at hp
                    simp at hp
                  · rw [hso] at hp
                    simp only [] at hp
                    rcases hpp2 : parsePre m rem2 with ⟨of2, rem3⟩
                    rw [hpp2] at hp
                    cases of2 with
                    | none => simp at hp
                    | some f2 =>
                      simp only [] at hp
                      obtain ⟨hwf1, hrepr1⟩ := ih rest f1 rem1
                        (by simpa using Nat.le_of_succ_le_succ hlen) hpp
                      obtain ⟨hbop, hops⟩ := stripBinOp_sound hso
                      have hlrem1 : rem1.length ≤ rest.length := by
                        rw [← hrepr1]
                        simp
                      have hlrem2 : rem2.length ≤ m := by
                        have : op.length + rem2.length = rem1.length := by
                          rw [← hops]
                          simp
                        have hop1 := is_binary_length hbop
                        simp at hlen
                        omega
                      obtain ⟨hwf2, hrepr2⟩ := ih rem2 f2 rem3 hlrem2 hpp2
                      cases rem3 with
                      | nil => simp at hp
                      | cons c2 rest3 =>
                        by_cases h6 : c2 = ')'
                        · subst h6
                          simp only [] at hp
                          obtain ⟨rfl, rfl⟩ : Formula.bin op f1 f2 = f ∧ rest3 = r := by
                            constructor <;> simp_all
                          constructor
                          · simp [Formula.wf, hbop, hwf1, hwf2]
                          · simp only [Formula.repr]
                            rw [← hrepr1, ← hops, ← hrepr2]
                            simp [List.append_assoc]
                        · simp [h6] at hp
            · simp only [parsePre, h1, h2, h3, h4, if_false] at hp
              simp at hp

/-! ## C4 -/

/-- C4: for every constructor-valid formula, parsing its canonical
fully-parenthesized rendering returns the same tree. -/
theorem c4_parse_repr_roundtrip (f : Formula) (h : f.wf = true) :
    Formula.parse f.repr = some f := by
  have hc := parsePre_complete f h [] f.repr.length (by simp) rfl
  rw [List.append_nil] at hc
  have hisf : Formula.is_formula f.repr = true := by
    simp [Formula.is_formula, parsePrefixFn, hc]
  simp [Formula.parse, hisf, parsePrefixFn, hc]

/-- Witness for C4 at the formula `(p&~q)`. -/
theorem c4_witness :
    Formula.parse ((Formula.bin ['&'] (.leaf ['p']) (.un ['~'] (.leaf ['q']))).repr)
      = some (Formula.bin ['&'] (.leaf ['p']) (.un ['~'] (.leaf ['q']))) :=
  c4_parse_repr_roundtrip (Formula.bin ['&'] (.leaf ['p']) (.un ['~'] (.leaf ['q'])))
    (by decide)

/-! ## C8 -/

/-- C8: `is_formula` is true exactly on the canonical renderings of
constructor-valid formulas (the grammar, entire string consumed);
`parse` fails exactly when `is_formula` is false, and otherwise returns
the unique parse tree. -/
theorem c8_is_formula_parse_contract (s : Str) :
    (Formula.is_formula s = true ↔ ∃ f : Formula, f.wf = true ∧ f.repr = s) ∧
    (Formula.parse s = none ↔ Formula.is_formula s = false) ∧
    (∀ f, Formula.parse s = some f → f.wf = true ∧ f.repr = s ∧
      ∀ g, g.wf = true → g.repr = s → g = f) := by
  have key : ∀ (f : Formula) (r : Str), parsePrefixFn s = (some f, r) →
      f.wf = true ∧ f.repr ++ r = s := fun f r hp =>
    parsePre_sound s.length s f r le_rfl hp
  have keyc : ∀ g : Formula, g.wf = true → g.repr = s →
      parsePrefixFn s = (some g, []) := by
    intro g hg hr
    subst hr
    have hc := parsePre_complete g hg [] g.repr.length (by simp) rfl
    rw [List.append_nil] at hc
    exact hc
  refine ⟨⟨?_, ?_⟩, ⟨?_, ?_⟩, ?_⟩
  · intro h
    rcases hps : parsePrefixFn s with ⟨of, r⟩
    cases of with
    | none => simp [Formula.is_formula, hps] at h
    | some f =>
      have hr : r = [] := by simpa [Formula.is_formula, hps] using h
      subst hr
      obtain ⟨hwf, hrepr⟩ := key f [] hps
      exact ⟨f, hwf, by simpa using hrepr⟩
  · rintro ⟨f, hwf, rfl⟩
    simp [Formula.is_formula, keyc f hwf rfl]
  · intro h
    by_contra hne
    have his : Formula.is_formula s = true := by
      cases hif : Formula.is_formula s
      · exact absurd hif hne
      · rfl
    rcases hps : parsePrefixFn s with ⟨of, r⟩
    cases of with
    | none => simp [Formula.is_formula, hps] at his
    | some f =>
      have hr : r = [] := by simpa [Formula.is_formula, hps] using his
      subst hr
      simp [Formula.parse, his, hps] at h
  · intro h
    simp [Formula.parse, h]
  · intro f hpf
    by_cases his : Formula.is_formula s = true
    · rcases hps : parsePrefixFn s with ⟨of, r⟩
      cases of with
      | none => simp [Formula.is_formula, hps] at his
      | some f1 =>
        have hr : r = [] := by simpa [Formula.is_formula, hps] using his
        subst hr
        have hf1 : f = f1 := by
          simp [Formula.parse, his, hps] at hpf
          exact hpf.symm
        subst hf1
        obtain ⟨hwf, hrepr⟩ := key f [] hps
        refine ⟨hwf, by simpa using hrepr, ?_⟩
        intro g hg hgr
        have hgp := keyc g hg hgr
        rw [hps] at hgp
        have hfg : f = g := by simpa using hgp
        exact hfg.symm
    · simp [Formula.parse, his] at hpf

/-- Witness for C8 at the string `(p&q)`. -/
theorem c8_witness :
    (Formula.bin ['&'] (.leaf ['p']) (.leaf ['q'])).wf = true ∧
    (Formula.bin ['&'] (.leaf ['p']) (.leaf ['q'])).repr = "(p&q)".data := by
  have h := (c8_is_formula_parse_contract ("(p&q)".data)).2.2
    (Formula.bin ['&'] (.leaf ['p']) (.leaf ['q'])) (by decide)
  exact ⟨h.1, h.2.1⟩


/-! ## C2: the Polish-notation parser -/

theorem parsePol_at_T (m : Nat) (R : Str) :
    parsePol (m + 1) ('T' :: R) = (some (.leaf ['T']), R) := rfl

theorem parsePol_at_F (m : Nat) (R : Str) :
    parsePol (m + 1) ('F' :: R) = (some (.leaf ['F']), R) := rfl

theorem parsePol_at_tilde (m : Nat) (R : Str) :
    parsePol (m + 1) ('~' :: R) =
      (match parsePol m R with
       | (none, r) => (none, r)
       | (some first, r) => (some (.un ['~'] first), r)) := rfl

theorem parsePol_at_var {c : Char} (h : ('p' ≤ c && c ≤ 'z') = true) (m : Nat) (R : Str) :
    parsePol (m + 1) (c :: R) =
      (some (.leaf (c :: R.takeWhile Char.isDigit)), R.dropWhile Char.isDigit) := by
  simp [parsePol, char_range_not_const h, h]

theorem parsePol_tilde_success {m : Nat} {R r : Str} {f1 : Formula}
    (h1 : parsePol m R = (some f1, r)) :
    parsePol (m + 1) ('~' :: R) = (some (.un ['~'] f1), r) := by
  rw [parsePol_at_tilde]
  split
  · rename_i r2 heq
    rw [h1] at heq
    exact absurd heq (by simp)
  · rename_i first r2 heq
    rw [h1] at heq
    obtain ⟨rfl, rfl⟩ : first = f1 ∧ r2 = r := by constructor <;> simp_all
    rfl

theorem opsel_one {c : Char} (r0 : Char) (R : Str)
    (h2 : is_binary [c, r0] = false) (h1 : is_binary [c] = true) :
    (if 2 ≤ (c :: r0 :: R).length && is_binary ((c :: r0 :: R).take 2) then
      some ((c :: r0 :: R).take 2, (c :: r0 :: R).drop 2)
    else if is_binary [c] then some ([c], r0 :: R)
    else none) = some ([c], r0 :: R) := by
  have htake : (c :: r0 :: R).take 2 = [c, r0] := by simp
  simp [htake, h2, h1]

theorem opsel_two {c c2 : Char} (R : Str) (h : is_binary [c, c2] = true) :
    (if 2 ≤ (c :: c2 :: R).length && is_binary ((c :: c2 :: R).take 2) then
      some ((c :: c2 :: R).take 2, (c :: c2 :: R).drop 2)
    else if is_binary [c] then some ([c], c2 :: R)
    else none) = some ([c, c2], R) := by
  have htake : (c :: c2 :: R).take 2 = [c, c2] := by simp
  have hlen : 2 ≤ (c :: c2 :: R).length := by simp
  have hdrop : (c :: c2 :: R).drop 2 = R := by simp
  simp [htake, h, hlen, hdrop]

theorem parsePol_binop {m : Nat} {c : Char} {rest op remainder R2 R3 : Str}
    {f1 f2 : Formula}
    (hc1 : is_constant [c] = false) (hc2 : ('p' ≤ c && c ≤ 'z') = false)
    (hc3 : is_unary [c] = false)
    (hsel : (if 2 ≤ (c :: rest).length && is_binary ((c :: rest).take 2) then
              some ((c :: rest).take 2, (c :: rest).drop 2)
            else if is_binary [c] then some ([c], rest)
            else none) = some (op, remainder))
    (h1 : parsePol m remainder = (some f1, R2))
    (h2 : parsePol m R2 = (some f2, R3)) :
    parsePol (m + 1) (c :: rest) = (some (.bin op f1 f2), R3) := by
  simp only [parsePol, hc1, hc2, hc3, Bool.false_eq_true, if_false]
  rw [hsel]
  simp only []
  rw [h1]
  simp only []
  rw [h2]

theorem polish_cons (f : Formula) (hwf : f.wf = true) :
    ∃ c cs, f.polish = c :: cs ∧ c.isDigit = false := by
  cases f with
  | leaf root =>
    simp only [Formula.wf, Bool.or_eq_true] at hwf
    by_cases hc : is_constant root = true
    · rcases is_constant_cases hc with rfl | rfl
      · exact ⟨'T', [], rfl, rfl⟩
      · exact ⟨'F', [], rfl, rfl⟩
    · have hv : is_variable root = true := by
        rcases hwf with h | h
        · exact h
        · exact absurd h hc
      cases root with
      | nil => simp [is_variable] at hv
      | cons c ds =>
        simp only [is_variable] at hv
        rw [Bool.and_eq_true] at hv
        exact ⟨c, ds, rfl, char_range_not_digit hv.1⟩
  | un root first =>
    simp only [Formula.wf, Bool.and_eq_true] at hwf
    rw [is_unary_eq hwf.1]
    exact ⟨'~', first.polish, rfl, rfl⟩
  | bin root f1 f2 =>
    simp only [Formula.wf, Bool.and_eq_true] at hwf
    rcases is_binary_cases hwf.1.1 with rfl | rfl | rfl | rfl | rfl | rfl | rfl
    · exact ⟨'&', f1.polish ++ f2.polish, rfl, rfl⟩
    · exact ⟨'|', f1.polish ++ f2.polish, rfl, rfl⟩
    · exact ⟨'-', '>' :: (f1.polish ++ f2.polish), rfl, rfl⟩
    · exact ⟨'+', f1.polish ++ f2.polish, rfl, rfl⟩
    · exact ⟨'<', '-' :: '>' :: (f1.polish ++ f2.polish), rfl, rfl⟩
    · exact ⟨'-', '&' :: (f1.polish ++ f2.polish), rfl, rfl⟩
    · exact ⟨'-', '|' :: (f1.polish ++ f2.polish), rfl, rfl⟩

theorem polish_headNotDigit (f : Formula) (hwf : f.wf = true) (x : Str) :
    headNotDigit (f.polish ++ x) = true := by
  obtain ⟨c, cs, hpol, hcd⟩ := polish_cons f hwf
  rw [hpol]
  simp [headNotDigit, hcd]

/-- Completeness of the inner parser of `parse_polish` on formulas that
avoid the three-character operator. -/
theorem parsePol_complete (f : Formula) (hwf : f.wf = true) (hno : f.noIff = true) :
    ∀ (t : Str) (fuel : Nat), (f.polish ++ t).length ≤ fuel →
      headNotDigit t = true → parsePol fuel (f.polish ++ t) = (some f, t) := by
  induction f with
  | leaf root =>
    intro t fuel hlen ht
    simp only [Formula.wf, Bool.or_eq_true] at hwf
    by_cases hc : is_constant root = true
    · rcases is_constant_cases hc with rfl | rfl
      · obtain ⟨m, rfl⟩ : ∃ m, fuel = m + 1 := by
          cases fuel with
          | zero => simp [Formula.polish] at hlen
          | succ m => exact ⟨m, rfl⟩
        simpa [Formula.polish] using parsePol_at_T m t
      · obtain ⟨m, rfl⟩ : ∃ m, fuel = m + 1 := by
          cases fuel with
          | zero => simp [Formula.polish] at hlen
          | succ m => exact ⟨m, rfl⟩
        simpa [Formula.polish] using parsePol_at_F m t
    · have hv : is_variable root = true := by
        rcases hwf with h | h
        · exact h
        · exact absurd h hc
      cases root with
      | nil => simp [is_variable] at hv
      | cons c ds =>
        simp only [is_variable] at hv
        rw [Bool.and_eq_true] at hv
        obtain ⟨m, rfl⟩ : ∃ m, fuel = m + 1 := by
          cases fuel with
          | zero => simp [Formula.polish] at hlen
          | succ m => exact ⟨m, rfl⟩
        have hds : ds.all Char.isDigit = true := by
          cases ds with
          | nil => rfl
          | cons d ds2 => simpa using hv.2
        have heq : (Formula.polish (.leaf (c :: ds))) ++ t = c :: (ds ++ t) := by
          simp [Formula.polish]
        rw [heq, parsePol_at_var hv.1 m (ds ++ t), takeWhile_digits hds ht,
          dropWhile_digits hds ht]
  | un root first ih =>
    intro t fuel hlen ht
    simp only [Formula.wf, Bool.and_eq_true] at hwf
    obtain ⟨hu, hwf1⟩ := hwf
    have hr := is_unary_eq hu
    subst hr
    simp only [Formula.noIff] at hno
    obtain ⟨m, rfl⟩ : ∃ m, fuel = m + 1 := by
      cases fuel with
      | zero => simp [Formula.polish] at hlen
      | succ m => exact ⟨m, rfl⟩
    have heq : Formula.polish (.un ['~'] first) ++ t = '~' :: (first.polish ++ t) := by
      simp [Formula.polish]
    have hlen1 : (first.polish ++ t).length ≤ m := by
      rw [heq] at hlen
      simpa using hlen
    rw [heq, parsePol_tilde_success (ih hwf1 hno t m hlen1 ht)]
  | bin root f1 f2 ih1 ih2 =>
    intro t fuel hlen ht
    simp only [Formula.wf, Bool.and_eq_true] at hwf
    obtain ⟨⟨hb, hwf1⟩, hwf2⟩ := hwf
    simp only [Formula.noIff, Bool.and_eq_true] at hno
    obtain ⟨⟨hniff, hno1⟩, hno2⟩ := hno
    obtain ⟨m, rfl⟩ : ∃ m, fuel = m + 1 := by
      cases fuel with
      | zero =>
        obtain ⟨c, cs, hpol, _⟩ := polish_cons (.bin root f1 f2) (by
          simp [Formula.wf, hb, hwf1, hwf2])
        rw [hpol] at hlen
        simp at hlen
      | succ m => exact ⟨m, rfl⟩
    have hlenpol : (Formula.polish (.bin root f1 f2) ++ t).length ≤ m + 1 := hlen
    have hht2 : headNotDigit (f2.polish ++ t) = true := polish_headNotDigit f2 hwf2 t
    have hpollen : Formula.polish (.bin root f1 f2)
        = root ++ (f1.polish ++ f2.polish) := by
      simp [Formula.polish]
    have hlen1 : (f1.polish ++ (f2.polish ++ t)).length ≤ m := by
      rw [hpollen] at hlen
      have := is_binary_length hb
      simp at hlen ⊢
      omega
    have hlen2 : (f2.polish ++ t).length ≤ m := by
      obtain ⟨c1, cs1, hpol1, _⟩ := polish_cons f1 hwf1
      rw [hpollen] at hlen
      have := is_binary_length hb
      rw [hpol1] at hlen
      simp at hlen ⊢
      omega
    have h1 := ih1 hwf1 hno1 (f2.polish ++ t) m hlen1 hht2
    have h2 := ih2 hwf2 hno2 t m hlen2 ht
    have hassoc : f1.polish ++ (f2.polish ++ t) = (f1.polish ++ f2.polish) ++ t := by
      simp [List.append_assoc]
    rcases is_binary_cases hb with rfl | rfl | rfl | rfl | rfl | rfl | rfl
    · obtain ⟨c1, cs1, hpol1, _⟩ := polish_cons f1 hwf1
      have heq : Formula.polish (.bin ['&'] f1 f2) ++ t
          = '&' :: c1 :: (cs1 ++ (f2.polish ++ t)) := by
        simp [Formula.polish, hpol1]
      rw [hpol1] at h1
      simp only [List.cons_append] at h1
      rw [heq]
      exact parsePol_binop (by decide) (by decide) (by decide)
        (opsel_one c1 (cs1 ++ (f2.polish ++ t)) (is_binary_amp c1 []) (by decide)) h1 h2
    · obtain ⟨c1, cs1, hpol1, _⟩ := polish_cons f1 hwf1
      have heq : Formula.polish (.bin ['|'] f1 f2) ++ t
          = '|' :: c1 :: (cs1 ++ (f2.polish ++ t)) := by
        simp [Formula.polish, hpol1]
      rw [hpol1] at h1
      simp only [List.cons_append] at h1
      rw [heq]
      exact parsePol_binop (by decide) (by decide) (by decide)
        (opsel_one c1 (cs1 ++ (f2.polish ++ t)) (is_binary_bar c1 []) (by decide)) h1 h2
    · have heq : Formula.polish (.bin ['-', '>'] f1 f2) ++ t
          = '-' :: '>' :: (f1.polish ++ (f2.polish ++ t)) := by
        simp [Formula.polish]
      rw [heq]
      exact parsePol_binop (by decide) (by decide) (by decide)
        (opsel_two (f1.polish ++ (f2.polish ++ t)) (by decide)) h1 h2
    · obtain ⟨c1, cs1, hpol1, _⟩ := polish_cons f1 hwf1
      have heq : Formula.polish (.bin ['+'] f1 f2) ++ t
          = '+' :: c1 :: (cs1 ++ (f2.polish ++ t)) := by
        simp [Formula.polish, hpol1]
      rw [hpol1] at h1
      simp only [List.cons_append] at h1
      rw [heq]
      exact parsePol_binop (by decide) (by decide) (by decide)
        (opsel_one c1 (cs1 ++ (f2.polish ++ t)) (is_binary_plus c1 []) (by decide)) h1 h2
    · simp at hniff
    · have heq : Formula.polish (.bin ['-', '&'] f1 f2) ++ t
          = '-' :: '&' :: (f1.polish ++ (f2.polish ++ t)) := by
        simp [Formula.polish]
      rw [heq]
      exact parsePol_binop (by decide) (by decide) (by decide)
        (opsel_two (f1.polish ++ (f2.polish ++ t)) (by decide)) h1 h2
    · have heq : Formula.polish (.bin ['-', '|'] f1 f2) ++ t
          = '-' :: '|' :: (f1.polish ++ (f2.polish ++ t)) := by
        simp [Formula.polish]
      rw [heq]
      exact parsePol_binop (by decide) (by decide) (by decide)
        (opsel_two (f1.polish ++ (f2.polish ++ t)) (by decide)) h1 h2

/-- C2 (counterexample): the claim fails on the code.  The formula
`(p<->q)` is constructor-valid and its Polish rendering is `<->pq`,
but `parse_polish` hits its assertion (the parser only tries operator
prefixes of length 2 and 1, so the three-character token is never
recognised). -/
theorem c2_counterexample :
    (Formula.bin ['<', '-', '>'] (.leaf ['p']) (.leaf ['q'])).wf = true ∧
    (Formula.bin ['<', '-', '>'] (.leaf ['p']) (.leaf ['q'])).polish = "<->pq".data ∧
    Formula.parse_polish
      ((Formula.bin ['<', '-', '>'] (.leaf ['p']) (.leaf ['q'])).polish) = none := by
  refine ⟨by decide, by decide, by decide⟩

/-- C2 (amended): for every constructor-valid formula containing no
`<->` node, `parse_polish(f.polish())` returns `f`; the parser tries
the 2-character operator prefix before the 1-character one. -/
theorem c2_parse_polish_roundtrip (f : Formula) (hwf : f.wf = true)
    (hno : f.noIff = true) : Formula.parse_polish f.polish = some f := by
  have hc := parsePol_complete f hwf hno [] f.polish.length (by simp) rfl
  rw [List.append_nil] at hc
  simp [Formula.parse_polish, hc]

/-- Witness for the amended C2 at the formula `(p-&q)`. -/
theorem c2_witness :
    Formula.parse_polish ((Formula.bin ['-', '&'] (.leaf ['p']) (.leaf ['q'])).polish)
      = some (Formula.bin ['-', '&'] (.leaf ['p']) (.leaf ['q'])) :=
  c2_parse_polish_roundtrip (Formula.bin ['-', '&'] (.leaf ['p']) (.leaf ['q']))
    (by decide) (by decide)


/-! ## C10 -/

/-- C10: `is_satisfiable(f) == not is_contradiction(f)` for every
formula `f` — both reduce the same enumeration with `any` versus
`not any`. -/
theorem c10_satisfiable_iff_not_contradiction (f : Formula) :
    is_satisfiable f = !(is_contradiction f) := by
  simp [is_satisfiable, is_contradiction]

/-! ## C7 -/

/-- C7: two formulas are Python-equal iff their canonical string
renderings are equal, and Python-equal formulas have equal hashes. -/
theorem c7_eq_iff_repr_eq (f g : Formula) :
    (Formula.pyEq f g = true ↔ f.repr = g.repr) ∧
    (Formula.pyEq f g = true → f.pyHash = g.pyHash) := by
  constructor
  · simp [Formula.pyEq]
  · intro h
    simp only [Formula.pyEq, beq_iff_eq] at h
    simp [Formula.pyHash, h]

/-- Witness for C7 at two concretely built textually-identical trees. -/
theorem c7_witness :
    Formula.pyEq (Formula.bin ['&'] (.leaf ['p']) (.leaf ['q']))
        (Formula.bin ['&'] (.leaf ['p']) (.leaf ['q'])) = true ∧
      (Formula.bin ['&'] (.leaf ['p']) (.leaf ['q'])).pyHash =
        (Formula.bin ['&'] (.leaf ['p']) (.leaf ['q'])).pyHash :=
  ⟨by decide,
   (c7_eq_iff_repr_eq (Formula.bin ['&'] (.leaf ['p']) (.leaf ['q']))
     (Formula.bin ['&'] (.leaf ['p']) (.leaf ['q']))).2 (by decide)⟩

/-! ## C1 -/

/-- C1 (code bug): `to_implies_not` does not preserve the truth table.
On `(p+q)` with the model `p=False, q=False` the source formula
evaluates to `False`, but the converted formula
`~((p->~q)->~(q->~p))` evaluates to `True`. -/
theorem c1_to_implies_not_breaks_equivalence :
    evaluate (Formula.bin ['+'] (.leaf ['p']) (.leaf ['q']))
        [(['p'], false), (['q'], false)] = some false ∧
    to_implies_not (Formula.bin ['+'] (.leaf ['p']) (.leaf ['q'])) =
      some (.un ['~'] (.bin ['-', '>']
        (.bin ['-', '>'] (.leaf ['p']) (.un ['~'] (.leaf ['q'])))
        (.un ['~'] (.bin ['-', '>'] (.leaf ['q']) (.un ['~'] (.leaf ['p'])))))) ∧
    evaluate (Formula.un ['~'] (.bin ['-', '>']
        (.bin ['-', '>'] (.leaf ['p']) (.un ['~'] (.leaf ['q'])))
        (.un ['~'] (.bin ['-', '>'] (.leaf ['q']) (.un ['~'] (.leaf ['p']))))))
        [(['p'], false), (['q'], false)] = some true := by
  refine ⟨by decide, by decide, by decide⟩

/-! ## C9 -/

/-- C9: under the constructor invariant, `evaluate` on a model covering
the formula's variables always returns a boolean; no failure path (in
particular not the `raise ValueError('Unknown operator')` branch, the
final `none` of the binary case) is ever reached. -/
theorem c9_evaluate_total_on_wf (f : Formula) (m : Model)
    (hwf : f.wf = true) (hmodel : is_model m = true)
    (hcov : ∀ v ∈ f.varsList, (mlookup m v).isSome = true) :
    (evaluate f m).isSome = true := by
  induction f with
  | leaf root =>
    simp only [Formula.wf, Bool.or_eq_true] at hwf
    by_cases hc : is_constant root = true
    · simp [evaluate, hc]
    · have hv : is_variable root = true := by
        rcases hwf with h | h
        · exact h
        · exact absurd h hc
      have : root ∈ Formula.varsList (.leaf root) := by
        simp [Formula.varsList, hv]
      have := hcov root this
      simp [evaluate, hc, hv, this]
  | un root first ih =>
    simp only [Formula.wf, Bool.and_eq_true] at hwf
    have h1 := ih hwf.2 (by intro v hvm; exact hcov v (by simpa [Formula.varsList] using hvm))
    rcases Option.isSome_iff_exists.mp h1 with ⟨b, hb⟩
    simp [evaluate, hwf.1, hb]
  | bin root first second ih1 ih2 =>
    simp only [Formula.wf, Bool.and_eq_true] at hwf
    obtain ⟨⟨hroot, hwf1⟩, hwf2⟩ := hwf
    have h1 := ih1 hwf1 (by
      intro v hvm
      exact hcov v (by simp [Formula.varsList, hvm]))
    have h2 := ih2 hwf2 (by
      intro v hvm
      exact hcov v (by simp [Formula.varsList, hvm]))
    rcases Option.isSome_iff_exists.mp h1 with ⟨a, ha⟩
    rcases Option.isSome_iff_exists.mp h2 with ⟨b, hb⟩
    rcases is_binary_cases hroot with rfl | rfl | rfl | rfl | rfl | rfl | rfl <;>
      simp [evaluate, ha, hb, is_binary]

/-- Witness for C9 at `(p&~q)` with `p=True, q=False`. -/
theorem c9_witness :
    (evaluate (Formula.bin ['&'] (.leaf ['p']) (.un ['~'] (.leaf ['q'])))
      [(['p'], true), (['q'], false)]).isSome = true :=
  c9_evaluate_total_on_wf
    (Formula.bin ['&'] (.leaf ['p']) (.un ['~'] (.leaf ['q'])))
    [(['p'], true), (['q'], false)] (by decide) (by decide) (by decide)

/-! ## C3: operator containment of the five reducers -/

theorem wf_bin {r : Str} {f g : Formula} (hr : is_binary r = true)
    (hf : f.wf = true) (hg : g.wf = true) : (Formula.bin r f g).wf = true := by
  simp [Formula.wf, hr, hf, hg]

theorem wf_un {r : Str} {f : Formula} (hr : is_unary r = true)
    (hf : f.wf = true) : (Formula.un r f).wf = true := by
  simp [Formula.wf, hr, hf]

theorem ops_bin_subset {r : Str} {f g : Formula} {T : List Str}
    (hr : r ∈ T) (hf : f.operators ⊆ T) (hg : g.operators ⊆ T) :
    (Formula.bin r f g).operators ⊆ T := by
  simp only [Formula.operators, List.cons_subset, List.append_subset]
  exact ⟨hr, hf, hg⟩

theorem ops_un_subset {r : Str} {f : Formula} {T : List Str}
    (hr : r ∈ T) (hf : f.operators ⊆ T) :
    (Formula.un r f).operators ⊆ T := by
  simp only [Formula.operators, List.cons_subset]
  exact ⟨hr, hf⟩

theorem ops_leaf_var_subset {r : Str} {T : List Str}
    (h : is_variable r = true) : (Formula.leaf r).operators ⊆ T := by
  simp [Formula.operators, h]

theorem leaf_const_ops_mem {root : Str} (hc : is_constant root = true) :
    root ∈ (Formula.leaf root).operators := by
  have hv : is_variable root = false := by
    rcases is_constant_cases hc with rfl | rfl <;> decide
  simp [Formula.operators, hv]

/-- Function `to_not_and_or` succeeds on every well-formed formula and its output
is well-formed with operators among `~`, `&`, `|`. -/
theorem to_not_and_or_spec (f : Formula) (h : f.wf = true) :
    ∃ g, to_not_and_or f = some g ∧ g.wf = true ∧
      g.operators ⊆ [['~'], ['&'], ['|']] := by
  induction f with
  | leaf root =>
    simp only [Formula.wf, Bool.or_eq_true] at h
    by_cases hc : is_constant root = true
    · rcases is_constant_cases hc with rfl | rfl
      · exact ⟨.bin ['|'] (.leaf ['p']) (.un ['~'] (.leaf ['p'])),
          by decide, by decide, by decide⟩
      · exact ⟨.bin ['&'] (.leaf ['p']) (.un ['~'] (.leaf ['p'])),
          by decide, by decide, by decide⟩
    · have hv : is_variable root = true := by
        rcases h with h | h
        · exact h
        · exact absurd h hc
      have hncv : is_constant root = false := by simpa using hc
      exact ⟨.leaf root, by simp [to_not_and_or, hncv, hv],
        by simp [Formula.wf, hv], ops_leaf_var_subset hv⟩
  | un root first ih =>
    simp only [Formula.wf, Bool.and_eq_true] at h
    obtain ⟨g1, hg1, hwf1, hsub1⟩ := ih h.2
    refine ⟨.un ['~'] g1, ?_, wf_un (by decide) hwf1,
      ops_un_subset (by decide) hsub1⟩
    rw [is_unary_eq h.1]
    simp [to_not_and_or, hg1, is_unary]
  | bin root f1 f2 ih1 ih2 =>
    simp only [Formula.wf, Bool.and_eq_true] at h
    obtain ⟨⟨hroot, hwfa⟩, hwfb⟩ := h
    obtain ⟨g1, hg1, hwf1, hsub1⟩ := ih1 hwfa
    obtain ⟨g2, hg2, hwf2, hsub2⟩ := ih2 hwfb
    rcases is_binary_cases hroot with rfl | rfl | rfl | rfl | rfl | rfl | rfl
    · exact ⟨.bin ['&'] g1 g2, by simp [to_not_and_or, hg1, hg2, is_binary],
        wf_bin (by decide) hwf1 hwf2,
        ops_bin_subset (by decide) hsub1 hsub2⟩
    · exact ⟨.bin ['|'] g1 g2, by simp [to_not_and_or, hg1, hg2, is_binary],
        wf_bin (by decide) hwf1 hwf2,
        ops_bin_subset (by decide) hsub1 hsub2⟩
    · exact ⟨.bin ['|'] (.un ['~'] g1) g2,
        by simp [to_not_and_or, hg1, hg2, is_binary],
        wf_bin (by decide) (wf_un (by decide) hwf1) hwf2,
        ops_bin_subset (by decide) (ops_un_subset (by decide) hsub1) hsub2⟩
    · exact ⟨.bin ['|'] (.bin ['&'] g1 (.un ['~'] g2))
          (.bin ['&'] (.un ['~'] g1) g2),
        by simp [to_not_and_or, hg1, hg2, is_binary],
        wf_bin (by decide)
          (wf_bin (by decide) hwf1 (wf_un (by decide) hwf2))
          (wf_bin (by decide) (wf_un (by decide) hwf1) hwf2),
        ops_bin_subset (by decide)
          (ops_bin_subset (by decide) hsub1 (ops_un_subset (by decide) hsub2))
          (ops_bin_subset (by decide) (ops_un_subset (by decide) hsub1) hsub2)⟩
    · exact ⟨.bin ['|'] (.bin ['&'] g1 g2)
          (.bin ['&'] (.un ['~'] g1) (.un ['~'] g2)),
        by simp [to_not_and_or, hg1, hg2, is_binary],
        wf_bin (by decide)
          (wf_bin (by decide) hwf1 hwf2)
          (wf_bin (by decide) (wf_un (by decide) hwf1) (wf_un (by decide) hwf2)),
        ops_bin_subset (by decide)
          (ops_bin_subset (by decide) hsub1 hsub2)
          (ops_bin_subset (by decide) (ops_un_subset (by decide) hsub1)
            (ops_un_subset (by decide) hsub2))⟩
    · exact ⟨.un ['~'] (.bin ['&'] g1 g2),
        by simp [to_not_and_or, hg1, hg2, is_binary],
        wf_un (by decide) (wf_bin (by decide) hwf1 hwf2),
        ops_un_subset (by decide) (ops_bin_subset (by decide) hsub1 hsub2)⟩
    · exact ⟨.un ['~'] (.bin ['|'] g1 g2),
        by simp [to_not_and_or, hg1, hg2, is_binary],
        wf_un (by decide) (wf_bin (by decide) hwf1 hwf2),
        ops_un_subset (by decide) (ops_bin_subset (by decide) hsub1 hsub2)⟩

/-- The inner `convert` of `to_not_and` succeeds on a well-formed
`{~,&,|}` formula and outputs a well-formed `{~,&}` formula. -/
theorem convertNA_spec (g : Formula) (hwf : g.wf = true)
    (hops : g.operators ⊆ [['~'], ['&'], ['|']]) :
    ∃ h, convertNA g = some h ∧ h.wf = true ∧
      h.operators ⊆ [['~'], ['&']] := by
  induction g with
  | leaf root =>
    simp only [Formula.wf, Bool.or_eq_true] at hwf
    by_cases hc : is_constant root = true
    · exfalso
      have hbad := hops (leaf_const_ops_mem hc)
      rcases is_constant_cases hc with rfl | rfl <;> simp at hbad
    · have hv : is_variable root = true := by
        rcases hwf with h | h
        · exact h
        · exact absurd h hc
      exact ⟨.leaf root, by simp [convertNA, hv], by simp [Formula.wf, hv],
        ops_leaf_var_subset hv⟩
  | un root first ih =>
    simp only [Formula.wf, Bool.and_eq_true] at hwf
    have hops1 : first.operators ⊆ [['~'], ['&'], ['|']] := by
      intro x hx
      exact hops (by simp [Formula.operators, hx])
    obtain ⟨h1, hh1, hwf1, hsub1⟩ := ih hwf.2 hops1
    refine ⟨.un ['~'] h1, ?_, wf_un (by decide) hwf1,
      ops_un_subset (by decide) hsub1⟩
    rw [is_unary_eq hwf.1]
    simp [convertNA, hh1, is_unary]
  | bin root f1 f2 ih1 ih2 =>
    simp only [Formula.wf, Bool.and_eq_true] at hwf
    obtain ⟨⟨hroot, hwfa⟩, hwfb⟩ := hwf
    have hops1 : f1.operators ⊆ [['~'], ['&'], ['|']] := by
      intro x hx
      exact hops (by simp [Formula.operators, hx])
    have hops2 : f2.operators ⊆ [['~'], ['&'], ['|']] := by
      intro x hx
      exact hops (by simp [Formula.operators, hx])
    obtain ⟨h1, hh1, hwf1, hsub1⟩ := ih1 hwfa hops1
    obtain ⟨h2, hh2, hwf2, hsub2⟩ := ih2 hwfb hops2
    have hmem : root ∈ [['~'], ['&'], ['|']] :=
      hops (by simp [Formula.operators])
    have hcase : root = ['&'] ∨ root = ['|'] := by
      rcases is_binary_cases hroot with rfl | rfl | rfl | rfl | rfl | rfl | rfl <;>
        simp_all
    rcases hcase with rfl | rfl
    · exact ⟨.bin ['&'] h1 h2, by simp [convertNA, hh1, hh2],
        wf_bin (by decide) hwf1 hwf2,
        ops_bin_subset (by decide) hsub1 hsub2⟩
    · exact ⟨.un ['~'] (.bin ['&'] (.un ['~'] h1) (.un ['~'] h2)),
        by simp [convertNA, hh1, hh2],
        wf_un (by decide) (wf_bin (by decide) (wf_un (by decide) hwf1)
          (wf_un (by decide) hwf2)),
        ops_un_subset (by decide) (ops_bin_subset (by decide)
          (ops_un_subset (by decide) hsub1) (ops_un_subset (by decide) hsub2))⟩

/-- Function `to_not_and` succeeds on every well-formed formula and outputs a
well-formed `{~,&}` formula. -/
theorem to_not_and_spec (f : Formula) (h : f.wf = true) :
    ∃ g, to_not_and f = some g ∧ g.wf = true ∧
      g.operators ⊆ [['~'], ['&']] := by
  obtain ⟨g, hg, hwf, hsub⟩ := to_not_and_or_spec f h
  obtain ⟨h2, hh2, hwf2, hsub2⟩ := convertNA_spec g hwf hsub
  exact ⟨h2, by simp [to_not_and, hg, hh2], hwf2, hsub2⟩

/-- The inner `convert` of `to_nand` succeeds on a well-formed `{~,&}`
formula and outputs a well-formed `{-&}` formula. -/
theorem convertNand_spec (g : Formula) (hwf : g.wf = true)
    (hops : g.operators ⊆ [['~'], ['&']]) :
    ∃ h, convertNand g = some h ∧ h.wf = true ∧
      h.operators ⊆ [['-', '&']] := by
  induction g with
  | leaf root =>
    simp only [Formula.wf, Bool.or_eq_true] at hwf
    by_cases hc : is_constant root = true
    · exfalso
      have hbad := hops (leaf_const_ops_mem hc)
      rcases is_constant_cases hc with rfl | rfl <;> simp at hbad
    · have hv : is_variable root = true := by
        rcases hwf with h | h
        · exact h
        · exact absurd h hc
      exact ⟨.leaf root, by simp [convertNand, hv], by simp [Formula.wf, hv],
        ops_leaf_var_subset hv⟩
  | un root first ih =>
    simp only [Formula.wf, Bool.and_eq_true] at hwf
    have hops1 : first.operators ⊆ [['~'], ['&']] := by
      intro x hx
      exact hops (by simp [Formula.operators, hx])
    obtain ⟨h1, hh1, hwf1, hsub1⟩ := ih hwf.2 hops1
    refine ⟨.bin ['-', '&'] h1 h1, ?_, wf_bin (by decide) hwf1 hwf1,
      ops_bin_subset (by decide) hsub1 hsub1⟩
    rw [is_unary_eq hwf.1]
    simp [convertNand, hh1, is_unary]
  | bin root f1 f2 ih1 ih2 =>
    simp only [Formula.wf, Bool.and_eq_true] at hwf
    obtain ⟨⟨hroot, hwfa⟩, hwfb⟩ := hwf
    have hops1 : f1.operators ⊆ [['~'], ['&']] := by
      intro x hx
      exact hops (by simp [Formula.operators, hx])
    have hops2 : f2.operators ⊆ [['~'], ['&']] := by
      intro x hx
      exact hops (by simp [Formula.operators, hx])
    obtain ⟨h1, hh1, hwf1, hsub1⟩ := ih1 hwfa hops1
    obtain ⟨h2, hh2, hwf2, hsub2⟩ := ih2 hwfb hops2
    have hmem : root ∈ [['~'], ['&']] := hops (by simp [Formula.operators])
    have hcase : root = ['&'] := by
      rcases is_binary_cases hroot with rfl | rfl | rfl | rfl | rfl | rfl | rfl <;>
        simp_all
    subst hcase
    exact ⟨.bin ['-', '&'] (.bin ['-', '&'] h1 h2) (.bin ['-', '&'] h1 h2),
      by simp [convertNand, hh1, hh2],
      wf_bin (by decide) (wf_bin (by decide) hwf1 hwf2)
        (wf_bin (by decide) hwf1 hwf2),
      ops_bin_subset (by decide) (ops_bin_subset (by decide) hsub1 hsub2)
        (ops_bin_subset (by decide) hsub1 hsub2)⟩

/-- Function `to_nand` succeeds on every well-formed formula and outputs a
well-formed `{-&}` formula. -/
theorem to_nand_spec (f : Formula) (h : f.wf = true) :
    ∃ g, to_nand f = some g ∧ g.wf = true ∧
      g.operators ⊆ [['-', '&']] := by
  obtain ⟨g, hg, hwf, hsub⟩ := to_not_and_spec f h
  obtain ⟨h2, hh2, hwf2, hsub2⟩ := convertNand_spec g hwf hsub
  exact ⟨h2, by simp [to_nand, hg, hh2], hwf2, hsub2⟩

/-- Function `to_implies_not` succeeds on every well-formed formula and outputs a
well-formed `{->,~}` formula. -/
theorem to_implies_not_spec (f : Formula) (h : f.wf = true) :
    ∃ g, to_implies_not f = some g ∧ g.wf = true ∧
      g.operators ⊆ [['-', '>'], ['~']] := by
  induction f with
  | leaf root =>
    simp only [Formula.wf, Bool.or_eq_true] at h
    by_cases hc : is_constant root = true
    · rcases is_constant_cases hc with rfl | rfl
      · exact ⟨.bin ['-', '>'] (.leaf ['p']) (.leaf ['p']),
          by decide, by decide, by decide⟩
      · exact ⟨.un ['~'] (.bin ['-', '>'] (.leaf ['p']) (.leaf ['p'])),
          by decide, by decide, by decide⟩
    · have hv : is_variable root = true := by
        rcases h with h | h
        · exact h
        · exact absurd h hc
      have hncv : is_constant root = false := by simpa using hc
      exact ⟨.leaf root, by simp [to_implies_not, hncv, hv],
        by simp [Formula.wf, hv], ops_leaf_var_subset hv⟩
  | un root first ih =>
    simp only [Formula.wf, Bool.and_eq_true] at h
    obtain ⟨g1, hg1, hwf1, hsub1⟩ := ih h.2
    refine ⟨.un ['~'] g1, ?_, wf_un (by decide) hwf1,
      ops_un_subset (by decide) hsub1⟩
    rw [is_unary_eq h.1]
    simp [to_implies_not, hg1, is_unary]
  | bin root f1 f2 ih1 ih2 =>
    simp only [Formula.wf, Bool.and_eq_true] at h
    obtain ⟨⟨hroot, hwfa⟩, hwfb⟩ := h
    obtain ⟨g1, hg1, hwf1, hsub1⟩ := ih1 hwfa
    obtain ⟨g2, hg2, hwf2, hsub2⟩ := ih2 hwfb
    rcases is_binary_cases hroot with rfl | rfl | rfl | rfl | rfl | rfl | rfl
    · exact ⟨.un ['~'] (.bin ['-', '>'] g1 (.un ['~'] g2)),
        by simp [to_implies_not, hg1, hg2, is_binary],
        wf_un (by decide) (wf_bin (by decide) hwf1 (wf_un (by decide) hwf2)),
        ops_un_subset (by decide) (ops_bin_subset (by decide) hsub1
          (ops_un_subset (by decide) hsub2))⟩
    · exact ⟨.bin ['-', '>'] (.un ['~'] g1) g2,
        by simp [to_implies_not, hg1, hg2, is_binary],
        wf_bin (by decide) (wf_un (by decide) hwf1) hwf2,
        ops_bin_subset (by decide) (ops_un_subset (by decide) hsub1) hsub2⟩
    · exact ⟨.bin ['-', '>'] g1 g2,
        by simp [to_implies_not, hg1, hg2, is_binary],
        wf_bin (by decide) hwf1 hwf2,
        ops_bin_subset (by decide) hsub1 hsub2⟩
    · exact ⟨.un ['~'] (.bin ['-', '>']
          (.bin ['-', '>'] g1 (.un ['~'] g2))
          (.un ['~'] (.bin ['-', '>'] g2 (.un ['~'] g1)))),
        by simp [to_implies_not, hg1, hg2, is_binary],
        wf_un (by decide) (wf_bin (by decide)
          (wf_bin (by decide) hwf1 (wf_un (by decide) hwf2))
          (wf_un (by decide) (wf_bin (by decide) hwf2 (wf_un (by decide) hwf1)))),
        ops_un_subset (by decide) (ops_bin_subset (by decide)
          (ops_bin_subset (by decide) hsub1 (ops_un_subset (by decide) hsub2))
          (ops_un_subset (by decide) (ops_bin_subset (by decide) hsub2
            (ops_un_subset (by decide) hsub1))))⟩
    · exact ⟨.un ['~'] (.bin ['-', '>']
          (.un ['~'] (.bin ['-', '>'] g1 g2))
          (.un ['~'] (.bin ['-', '>'] g2 g1))),
        by simp [to_implies_not, hg1, hg2, is_binary],
        wf_un (by decide) (wf_bin (by decide)
          (wf_un (by decide) (wf_bin (by decide) hwf1 hwf2))
          (wf_un (by decide) (wf_bin (by decide) hwf2 hwf1))),
        ops_un_subset (by decide) (ops_bin_subset (by decide)
          (ops_un_subset (by decide) (ops_bin_subset (by decide) hsub1 hsub2))
          (ops_un_subset (by decide) (ops_bin_subset (by decide) hsub2 hsub1)))⟩
    · exact ⟨.bin ['-', '>'] g1 (.un ['~'] g2),
        by simp [to_implies_not, hg1, hg2, is_binary],
        wf_bin (by decide) hwf1 (wf_un (by decide) hwf2),
        ops_bin_subset (by decide) hsub1 (ops_un_subset (by decide) hsub2)⟩
    · exact ⟨.un ['~'] (.bin ['-', '>'] (.un ['~'] g1) g2),
        by simp [to_implies_not, hg1, hg2, is_binary],
        wf_un (by decide) (wf_bin (by decide) (wf_un (by decide) hwf1) hwf2),
        ops_un_subset (by decide) (ops_bin_subset (by decide)
          (ops_un_subset (by decide) hsub1) hsub2)⟩

/-- The inner `convert` of `to_implies_false` succeeds on a well-formed
`{->,~}` formula and outputs a well-formed `{->,F}` formula. -/
theorem convertIF_spec (g : Formula) (hwf : g.wf = true)
    (hops : g.operators ⊆ [['-', '>'], ['~']]) :
    ∃ h, convertIF g = some h ∧ h.wf = true ∧
      h.operators ⊆ [['-', '>'], ['F']] := by
  induction g with
  | leaf root =>
    simp only [Formula.wf, Bool.or_eq_true] at hwf
    by_cases hc : is_constant root = true
    · exfalso
      have hbad := hops (leaf_const_ops_mem hc)
      rcases is_constant_cases hc with rfl | rfl <;> simp at hbad
    · have hv : is_variable root = true := by
        rcases hwf with h | h
        · exact h
        · exact absurd h hc
      exact ⟨.leaf root, by simp [convertIF, hv], by simp [Formula.wf, hv],
        ops_leaf_var_subset hv⟩
  | un root first ih =>
    simp only [Formula.wf, Bool.and_eq_true] at hwf
    have hops1 : first.operators ⊆ [['-', '>'], ['~']] := by
      intro x hx
      exact hops (by simp [Formula.operators, hx])
    obtain ⟨h1, hh1, hwf1, hsub1⟩ := ih hwf.2 hops1
    refine ⟨.bin ['-', '>'] h1 (.leaf ['F']), ?_,
      wf_bin (by decide) hwf1 (by decide),
      ops_bin_subset (by decide) hsub1 (by decide)⟩
    rw [is_unary_eq hwf.1]
    simp [convertIF, hh1]
  | bin root f1 f2 ih1 ih2 =>
    simp only [Formula.wf, Bool.and_eq_true] at hwf
    obtain ⟨⟨hroot, hwfa⟩, hwfb⟩ := hwf
    have hops1 : f1.operators ⊆ [['-', '>'], ['~']] := by
      intro x hx
      exact hops (by simp [Formula.operators, hx])
    have hops2 : f2.operators ⊆ [['-', '>'], ['~']] := by
      intro x hx
      exact hops (by simp [Formula.operators, hx])
    obtain ⟨h1, hh1, hwf1, hsub1⟩ := ih1 hwfa hops1
    obtain ⟨h2, hh2, hwf2, hsub2⟩ := ih2 hwfb hops2
    have hmem : root ∈ [['-', '>'], ['~']] := hops (by simp [Formula.operators])
    have hcase : root = ['-', '>'] := by
      rcases is_binary_cases hroot with rfl | rfl | rfl | rfl | rfl | rfl | rfl <;>
        simp_all
    subst hcase
    exact ⟨.bin ['-', '>'] h1 h2, by simp [convertIF, hh1, hh2],
      wf_bin (by decide) hwf1 hwf2,
      ops_bin_subset (by decide) hsub1 hsub2⟩

/-- Function `to_implies_false` succeeds on every well-formed formula and outputs
a well-formed `{->,F}` formula. -/
theorem to_implies_false_spec (f : Formula) (h : f.wf = true) :
    ∃ g, to_implies_false f = some g ∧ g.wf = true ∧
      g.operators ⊆ [['-', '>'], ['F']] := by
  obtain ⟨g, hg, hwf, hsub⟩ := to_implies_not_spec f h
  obtain ⟨h2, hh2, hwf2, hsub2⟩ := convertIF_spec g hwf hsub
  exact ⟨h2, by simp [to_implies_false, hg, hh2], hwf2, hsub2⟩

/-- C3: each of the five reducers succeeds on every well-formed formula
and its output's operator set is contained in the reducer's declared
target set. -/
theorem c3_operator_containment (f : Formula) (h : f.wf = true) :
    (∃ g, to_not_and_or f = some g ∧ g.operators ⊆ [['~'], ['&'], ['|']]) ∧
    (∃ g, to_not_and f = some g ∧ g.operators ⊆ [['~'], ['&']]) ∧
    (∃ g, to_nand f = some g ∧ g.operators ⊆ [['-', '&']]) ∧
    (∃ g, to_implies_not f = some g ∧ g.operators ⊆ [['-', '>'], ['~']]) ∧
    (∃ g, to_implies_false f = some g ∧ g.operators ⊆ [['-', '>'], ['F']]) := by
  obtain ⟨g1, h1, _, s1⟩ := to_not_and_or_spec f h
  obtain ⟨g2, h2, _, s2⟩ := to_not_and_spec f h
  obtain ⟨g3, h3, _, s3⟩ := to_nand_spec f h
  obtain ⟨g4, h4, _, s4⟩ := to_implies_not_spec f h
  obtain ⟨g5, h5, _, s5⟩ := to_implies_false_spec f h
  exact ⟨⟨g1, h1, s1⟩, ⟨g2, h2, s2⟩, ⟨g3, h3, s3⟩, ⟨g4, h4, s4⟩, ⟨g5, h5, s5⟩⟩

/-! ## C6: model enumeration -/

theorem all_values_length (n : Nat) : (all_values n).length = 2 ^ n := by
  induction n with
  | zero => rfl
  | succ n ih => simp [all_values, ih, pow_succ]; omega

theorem all_values_mem_length {n : Nat} {bs : List Bool}
    (h : bs ∈ all_values n) : bs.length = n := by
  induction n generalizing bs with
  | zero => simp [all_values] at h; simp [h]
  | succ n ih =>
    simp only [all_values, List.mem_append, List.mem_map] at h
    rcases h with ⟨vs, hvs, rfl⟩ | ⟨vs, hvs, rfl⟩ <;> simp [ih hvs]

theorem all_values_nodup (n : Nat) : (all_values n).Nodup := by
  induction n with
  | zero => simp [all_values]
  | succ n ih =>
    simp only [all_values]
    refine List.Nodup.append ?_ ?_ ?_
    · exact ih.map (fun a b h => by simpa using h)
    · exact ih.map (fun a b h => by simpa using h)
    · intro x h1 h2
      obtain ⟨a, _, rfl⟩ := List.mem_map.mp h1
      obtain ⟨b, _, hb⟩ := List.mem_map.mp h2
      simp at hb

theorem natBit_low {n i : Nat} (h : i < 2 ^ n) : natBit i n = false := by
  simp [natBit, Nat.div_eq_of_lt h]

theorem natBit_high {n k : Nat} (h : k < 2 ^ n) : natBit (2 ^ n + k) n = true := by
  have h1 : (2 ^ n + k) / 2 ^ n = 1 + k / 2 ^ n := by
    rw [Nat.add_comm, Nat.add_div_right _ (Nat.pos_pow_of_pos n (by omega))]
    omega
  simp [natBit, h1, Nat.div_eq_of_lt h]

theorem natBit_add_pow {n e k : Nat} (he : e < n) :
    natBit (2 ^ n + k) e = natBit k e := by
  have hsplit : 2 ^ n = 2 ^ e * (2 * 2 ^ (n - e - 1)) := by
    rw [← pow_succ']
    rw [← pow_add]
    congr 1
    omega
  unfold natBit
  congr 1
  rw [hsplit, Nat.mul_add_div (Nat.pos_pow_of_pos e (by omega)), Nat.mul_add_mod]

theorem natToBits_lo {n i : Nat} (h : i < 2 ^ n) :
    natToBits (n + 1) i = false :: natToBits n i := by
  unfold natToBits
  rw [List.range_succ_eq_map, List.map_cons, List.map_map]
  congr 1
  · simpa using natBit_low h
  · apply List.map_congr_left
    intro j _
    simp only [Function.comp_apply]
    congr 1
    omega

theorem natToBits_hi {n k : Nat} (h : k < 2 ^ n) :
    natToBits (n + 1) (2 ^ n + k) = true :: natToBits n k := by
  unfold natToBits
  rw [List.range_succ_eq_map, List.map_cons, List.map_map]
  congr 1
  · simpa using natBit_high h
  · apply List.map_congr_left
    intro j hj
    simp only [Function.comp_apply]
    have h1 : n + 1 - 1 - Nat.succ j = n - 1 - j := by omega
    have h2 : n - 1 - j < n := by
      simp only [List.mem_range] at hj
      omega
    rw [h1, natBit_add_pow h2]

theorem all_values_eq_range (n : Nat) :
    all_values n = (List.range (2 ^ n)).map (natToBits n) := by
  induction n with
  | zero => decide
  | succ n ih =>
    have hsplit : (2 : Nat) ^ (n + 1) = 2 ^ n + 2 ^ n := by
      rw [pow_succ]
      omega
    rw [hsplit, List.range_add]
    simp only [all_values, ih, List.map_append, List.map_map]
    congr 1
    · apply List.map_congr_left
      intro i hi
      simp only [List.mem_range] at hi
      simp [Function.comp_apply, natToBits_lo hi]
    · apply List.map_congr_left
      intro i hi
      simp only [List.mem_range] at hi
      simp [Function.comp_apply, natToBits_hi hi]

theorem zip_right_inj {V : List Str} :
    ∀ {bs cs : List Bool}, bs.length = V.length → cs.length = V.length →
      V.zip bs = V.zip cs → bs = cs := by
  induction V with
  | nil =>
    intro bs cs h1 h2 _
    cases bs <;> cases cs <;> simp_all
  | cons v Vt ih =>
    intro bs cs h1 h2 heq
    cases bs with
    | nil => simp at h1
    | cons b bt =>
      cases cs with
      | nil => simp at h2
      | cons c ct =>
        simp only [List.zip_cons_cons, List.cons.injEq, Prod.mk.injEq] at heq
        obtain ⟨⟨_, rfl⟩, htail⟩ := heq
        simp only [List.length_cons, Nat.succ.injEq] at h1 h2
        rw [ih h1 h2 htail]

/-- C6: for a list of distinct variable names, `all_models` yields
exactly `2**n` pairwise-distinct models, in binary-counting order with
the first variable as the most significant bit and `False` before
`True` (model `i` assigns the bits of `i`, most significant first). -/
theorem c6_all_models_enumeration (V : List Str) (hnd : V.Nodup)
    (hvar : ∀ v ∈ V, is_variable v = true) :
    (all_models V).length = 2 ^ V.length ∧
    (all_models V).Nodup ∧
    all_models V =
      (List.range (2 ^ V.length)).map (fun i => V.zip (natToBits V.length i)) := by
  refine ⟨?_, ?_, ?_⟩
  · simp [all_models, all_values_length]
  · refine List.Nodup.map_on ?_ (all_values_nodup V.length)
    intro bs hbs cs hcs heq
    exact zip_right_inj (all_values_mem_length hbs) (all_values_mem_length hcs) heq
  · rw [all_models, all_values_eq_range, List.map_map]
    simp [Function.comp]

/-- Witness for C6 at the two-variable list `[p, q]`. -/
theorem c6_witness :
    (all_models [['p'], ['q']]).length = 2 ^ 2 ∧
    (all_models [['p'], ['q']]).Nodup ∧
    all_models [['p'], ['q']] =
      (List.range (2 ^ 2)).map
        (fun i => [['p'], ['q']].zip (natToBits 2 i)) := by
  have h := c6_all_models_enumeration [['p'], ['q']] (by decide) (by decide)
  simpa using h

/-- Witness for C3 at the formula `~(T|p)`. -/
theorem c3_witness :
    (Formula.un ['~'] (.bin ['|'] (.leaf ['T']) (.leaf ['p']))).wf = true ∧
    ((∃ g, to_not_and_or (Formula.un ['~'] (.bin ['|'] (.leaf ['T']) (.leaf ['p']))) = some g ∧
        g.operators ⊆ [['~'], ['&'], ['|']]) ∧
     (∃ g, to_not_and (Formula.un ['~'] (.bin ['|'] (.leaf ['T']) (.leaf ['p']))) = some g ∧
        g.operators ⊆ [['~'], ['&']]) ∧
     (∃ g, to_nand (Formula.un ['~'] (.bin ['|'] (.leaf ['T']) (.leaf ['p']))) = some g ∧
        g.operators ⊆ [['-', '&']]) ∧
     (∃ g, to_implies_not (Formula.un ['~'] (.bin ['|'] (.leaf ['T']) (.leaf ['p']))) = some g ∧
        g.operators ⊆ [['-', '>'], ['~']]) ∧
     (∃ g, to_implies_false (Formula.un ['~'] (.bin ['|'] (.leaf ['T']) (.leaf ['p']))) = some g ∧
        g.operators ⊆ [['-', '>'], ['F']])) :=
  ⟨by decide,
   c3_operator_containment (Formula.un ['~'] (.bin ['|'] (.leaf ['T']) (.leaf ['p'])))
     (by decide)⟩

/-! ## C5: synthesis -/

theorem insertStr_perm (x : Str) (l : List Str) : (insertStr x l).Perm (x :: l) := by
  induction l with
  | nil => simp [insertStr]
  | cons y ys ih =>
    simp only [insertStr]
    split
    · exact List.Perm.refl _
    · exact ((ih.cons y).trans (List.Perm.swap x y ys))

theorem sortStr_perm (l : List Str) : (sortStr l).Perm l := by
  induction l with
  | nil => simp [sortStr]
  | cons x xs ih => exact (insertStr_perm x (sortStr xs)).trans (ih.cons x)

theorem perm_all {l1 l2 : List Str} (h : l1.Perm l2) (p : Str → Bool) :
    l1.all p = l2.all p := by
  rw [Bool.eq_iff_iff]
  simp only [List.all_eq_true]
  exact ⟨fun ha x hx => ha x (h.mem_iff.mpr hx), fun ha x hx => ha x (h.mem_iff.mp hx)⟩

theorem mlookup_cons_self (v : Str) (b : Bool) (m : Model) :
    mlookup ((v, b) :: m) v = some b := by
  simp [mlookup]

theorem mlookup_cons_ne {k v : Str} (b : Bool) (m : Model) (h : ¬ (k = v)) :
    mlookup ((k, b) :: m) v = mlookup m v := by
  simp [mlookup, h]

theorem mlookup_zip_some {V : List Str} :
    ∀ {bs : List Bool} {v : Str}, V.length = bs.length → v ∈ V →
      ∃ b, mlookup (V.zip bs) v = some b := by
  induction V with
  | nil => intro bs v _ hv; simp at hv
  | cons w Vt ih =>
    intro bs v hl hv
    cases bs with
    | nil => simp at hl
    | cons b bt =>
      by_cases hwv : w = v
      · subst hwv
        exact ⟨b, mlookup_cons_self w b (Vt.zip bt)⟩
      · rcases List.mem_cons.mp hv with heq | hv
        · exact absurd heq.symm hwv
        · simp only [List.length_cons, Nat.succ.injEq] at hl
          obtain ⟨b2, hb2⟩ := ih hl hv
          exact ⟨b2, by rw [List.zip_cons_cons, mlookup_cons_ne b _ hwv, hb2]⟩

theorem is_variable_not_constant {v : Str} (h : is_variable v = true) :
    is_constant v = false := by
  cases hc : is_constant v
  · rfl
  · rcases is_constant_cases hc with rfl | rfl <;> simp [is_variable] at h

theorem evaluate_synthLiteral {m m2 : Model} {v : Str} {b b2 : Bool}
    (hv : is_variable v = true)
    (hm : mlookup m v = some b) (hm2 : mlookup m2 v = some b2) :
    evaluate (synthLiteral m v) m2 = some (b == b2) := by
  have hnc := is_variable_not_constant hv
  cases b with
  | true =>
    simp [synthLiteral, hm, evaluate, hnc, hv, hm2]
  | false =>
    simp [synthLiteral, hm, evaluate, hnc, hv, hm2, is_unary]

theorem evaluate_synthLiteralNeg {m m2 : Model} {v : Str} {b b2 : Bool}
    (hv : is_variable v = true)
    (hm : mlookup m v = some b) (hm2 : mlookup m2 v = some b2) :
    evaluate (synthLiteralNeg m v) m2 = some (!(b == b2)) := by
  have hnc := is_variable_not_constant hv
  cases b with
  | true =>
    simp [synthLiteralNeg, hm, evaluate, hnc, hv, hm2, is_unary]
  | false =>
    simp [synthLiteralNeg, hm, evaluate, hnc, hv, hm2]

theorem evaluate_foldl_and_map (m2 : Model) (lit : Str → Formula) (g : Str → Bool) :
    ∀ (vs : List Str) (acc : Formula) (b0 : Bool),
      evaluate acc m2 = some b0 →
      (∀ v ∈ vs, evaluate (lit v) m2 = some (g v)) →
      evaluate ((vs.map lit).foldl (fun a l => .bin ['&'] a l) acc) m2
        = some (vs.foldl (fun b v => b && g v) b0) := by
  intro vs
  induction vs with
  | nil => intro acc b0 hacc _; simpa using hacc
  | cons v vt ih =>
    intro acc b0 hacc hall
    have hv := hall v (by simp)
    have hstep : evaluate (Formula.bin ['&'] acc (lit v)) m2 = some (b0 && g v) := by
      simp [evaluate, is_binary, hacc, hv]
    simpa using ih (Formula.bin ['&'] acc (lit v)) (b0 && g v) hstep
      (fun w hw => hall w (by simp [hw]))

theorem evaluate_foldl_or_map (m2 : Model) (lit : Str → Formula) (g : Str → Bool) :
    ∀ (vs : List Str) (acc : Formula) (b0 : Bool),
      evaluate acc m2 = some b0 →
      (∀ v ∈ vs, evaluate (lit v) m2 = some (g v)) →
      evaluate ((vs.map lit).foldl (fun a l => .bin ['|'] a l) acc) m2
        = some (vs.foldl (fun b v => b || g v) b0) := by
  intro vs
  induction vs with
  | nil => intro acc b0 hacc _; simpa using hacc
  | cons v vt ih =>
    intro acc b0 hacc hall
    have hv := hall v (by simp)
    have hstep : evaluate (Formula.bin ['|'] acc (lit v)) m2 = some (b0 || g v) := by
      simp [evaluate, is_binary, hacc, hv]
    simpa using ih (Formula.bin ['|'] acc (lit v)) (b0 || g v) hstep
      (fun w hw => hall w (by simp [hw]))

theorem foldl_and_eq_all (g : Str → Bool) :
    ∀ (vs : List Str) (b0 : Bool), vs.foldl (fun b v => b && g v) b0 = (b0 && vs.all g) := by
  intro vs
  induction vs with
  | nil => intro b0; simp
  | cons v vt ih => intro b0; simp [List.all_cons, ih, Bool.and_assoc]

theorem foldl_or_eq_any (g : Str → Bool) :
    ∀ (vs : List Str) (b0 : Bool), vs.foldl (fun b v => b || g v) b0 = (b0 || vs.any g) := by
  intro vs
  induction vs with
  | nil => intro b0; simp
  | cons v vt ih => intro b0; simp [List.any_cons, ih, Bool.or_assoc]

theorem any_not_eq_not_all (g : Str → Bool) (vs : List Str) :
    vs.any (fun v => !(g v)) = !(vs.all g) := by
  induction vs with
  | nil => simp
  | cons v vt ih => simp [List.any_cons, List.all_cons, ih]


theorem some_beq_some (a b : Bool) : ((some a : Option Bool) == some b) = (a == b) := rfl

theorem all_congr_mem {p q : Str → Bool} :
    ∀ {l : List Str}, (∀ v ∈ l, p v = q v) → l.all p = l.all q := by
  intro l
  induction l with
  | nil => intro _; rfl
  | cons v vt ih =>
    intro h
    simp [List.all_cons, h v (by simp), ih (fun w hw => h w (by simp [hw]))]

theorem modelsAgree_self (m : Model) (V : List Str) : modelsAgree m m V = true := by
  simp [modelsAgree, List.all_eq_true]

theorem modelsAgree_iff_eq {V : List Str} :
    ∀ {bs cs : List Bool}, V.Nodup → V.length = bs.length → V.length = cs.length →
      (modelsAgree (V.zip bs) (V.zip cs) V = true ↔ bs = cs) := by
  induction V with
  | nil =>
    intro bs cs _ hlb hlc
    cases bs with
    | nil =>
      cases cs with
      | nil => simp [modelsAgree]
      | cons c ct => simp at hlc
    | cons b bt => simp at hlb
  | cons w Vt ih =>
    intro bs cs hnd hlb hlc
    cases bs with
    | nil => simp at hlb
    | cons b bt =>
      cases cs with
      | nil => simp at hlc
      | cons c ct =>
        simp only [List.length_cons, Nat.succ.injEq] at hlb hlc
        simp only [List.nodup_cons] at hnd
        have hg : ∀ v ∈ Vt,
            (mlookup ((w :: Vt).zip (b :: bt)) v == mlookup ((w :: Vt).zip (c :: ct)) v)
              = (mlookup (Vt.zip bt) v == mlookup (Vt.zip ct) v) := by
          intro v hv
          have hwv : ¬ (w = v) := fun h => hnd.1 (h ▸ hv)
          rw [List.zip_cons_cons, List.zip_cons_cons, mlookup_cons_ne b _ hwv,
            mlookup_cons_ne c _ hwv]
        have hsplit : modelsAgree ((w :: Vt).zip (b :: bt)) ((w :: Vt).zip (c :: ct)) (w :: Vt)
            = ((b == c) && modelsAgree (Vt.zip bt) (Vt.zip ct) Vt) := by
          simp only [modelsAgree, List.all_cons, List.zip_cons_cons, mlookup_cons_self]
          rw [some_beq_some]
          congr 1
          exact all_congr_mem (fun v hv => by
            simpa [List.zip_cons_cons] using hg v hv)
        rw [hsplit]
        rw [Bool.and_eq_true]
        constructor
        · rintro ⟨h1, h2⟩
          have hbc : b = c := by simpa using h1
          have hbt : bt = ct := (ih hnd.2 hlb hlc).mp h2
          rw [hbc, hbt]
        · intro h
          obtain ⟨rfl, rfl⟩ : b = c ∧ bt = ct := by
            constructor <;> simp_all
          exact ⟨by simp, (ih hnd.2 hlb hlc).mpr rfl⟩

theorem all_models_length (V : List Str) : (all_models V).length = 2 ^ V.length := by
  simp [all_models, all_values_length]

theorem all_models_shape {V : List Str} {m : Model} (h : m ∈ all_models V) :
    ∃ bs : List Bool, V.length = bs.length ∧ m = V.zip bs := by
  simp only [all_models, List.mem_map] at h
  obtain ⟨bs, hbs, rfl⟩ := h
  exact ⟨bs, (all_values_mem_length hbs).symm, rfl⟩

theorem all_models_nodup (V : List Str) : (all_models V).Nodup := by
  refine List.Nodup.map_on ?_ (all_values_nodup V.length)
  intro bs hbs cs hcs heq
  exact zip_right_inj (all_values_mem_length hbs) (all_values_mem_length hcs) heq

theorem zip_fst_unique {ms : List Model} :
    ∀ {vals : List Bool} {m : Model} {a b : Bool}, ms.Nodup →
      (m, a) ∈ ms.zip vals → (m, b) ∈ ms.zip vals → a = b := by
  induction ms with
  | nil =>
    intro vals m a b _ h
    simp at h
  | cons m0 mt ih =>
    intro vals m a b hnd h1 h2
    cases vals with
    | nil => simp at h1
    | cons v vt =>
      simp only [List.zip_cons_cons, List.mem_cons] at h1 h2
      simp only [List.nodup_cons] at hnd
      rcases h1 with h1 | h1
      · rcases h2 with h2 | h2
        · rw [Prod.mk.injEq] at h1 h2
          obtain ⟨rfl, rfl⟩ := h1
          obtain ⟨-, rfl⟩ := h2
          rfl
        · rw [Prod.mk.injEq] at h1
          obtain ⟨rfl, rfl⟩ := h1
          exact absurd (List.of_mem_zip h2).1 hnd.1
      · rcases h2 with h2 | h2
        · rw [Prod.mk.injEq] at h2
          obtain ⟨rfl, rfl⟩ := h2
          exact absurd (List.of_mem_zip h1).1 hnd.1
        · exact ih hnd.2 h1 h2

theorem truth_values_of_pointwise {φ : Formula} :
    ∀ {ms : List Model} {vals : List Bool}, ms.length = vals.length →
      (∀ p ∈ ms.zip vals, evaluate φ p.1 = some p.2) →
      truth_values φ ms = vals.map some := by
  intro ms
  induction ms with
  | nil =>
    intro vals h _
    cases vals with
    | nil => rfl
    | cons v vt => simp at h
  | cons m mt ih =>
    intro vals h hp
    cases vals with
    | nil => simp at h
    | cons v vt =>
      simp only [List.length_cons, Nat.succ.injEq] at h
      have hh := hp (m, v) (by simp)
      have ht := ih h (fun p hp2 => hp p (by simp [hp2]))
      simp only [truth_values, List.map_cons] at ht ⊢
      rw [hh, ht]

theorem clausesOpt_forall2 {f : Model × Bool → Option Formula} :
    ∀ {ps : List (Model × Bool)}, (∀ p ∈ ps, (f p).isSome = true) →
      ∃ cls, clausesOpt f ps = some cls ∧
        List.Forall₂ (fun p cl => f p = some cl) ps cls := by
  intro ps
  induction ps with
  | nil =>
    intro _
    exact ⟨[], rfl, List.Forall₂.nil⟩
  | cons p pt ih =>
    intro h
    obtain ⟨cl, hcl⟩ := Option.isSome_iff_exists.mp (h p (by simp))
    obtain ⟨cls, hcls, hf⟩ := ih (fun q hq => h q (by simp [hq]))
    refine ⟨cl :: cls, ?_, List.Forall₂.cons hcl hf⟩
    simp [clausesOpt, hcl, hcls]

theorem forall2_imp_mem {α β : Type} {R S : α → β → Prop} :
    ∀ {l1 : List α} {l2 : List β}, List.Forall₂ R l1 l2 →
      (∀ a b, a ∈ l1 → R a b → S a b) → List.Forall₂ S l1 l2 := by
  intro l1 l2 h
  induction h with
  | nil => intro _; exact List.Forall₂.nil
  | cons hR hF ih =>
    intro himp
    exact List.Forall₂.cons (himp _ _ (by simp) hR)
      (ih (fun a b ha hr => himp a b (by simp [ha]) hr))

theorem forall2_flip_map {tps : List (Model × Bool)} {cls : List Formula}
    {m2 : Model} {F : Model × Bool → Bool}
    (h : List.Forall₂ (fun p cl => evaluate cl m2 = some (F p)) tps cls) :
    List.Forall₂ (fun cl b => evaluate cl m2 = some b) cls (tps.map F) := by
  induction h with
  | nil => exact List.Forall₂.nil
  | cons h1 h2 ih => exact List.Forall₂.cons h1 ih

theorem evaluate_foldl_or_forall2 {m2 : Model} :
    ∀ {cls : List Formula} {vals : List Bool},
      List.Forall₂ (fun cl b => evaluate cl m2 = some b) cls vals →
      ∀ (acc : Formula) (b0 : Bool), evaluate acc m2 = some b0 →
      evaluate (cls.foldl (fun a c => .bin ['|'] a c) acc) m2
        = some (vals.foldl (fun x y => x || y) b0) := by
  intro cls vals h
  induction h with
  | nil => intro acc b0 hacc; simpa using hacc
  | cons hcb hF ih =>
    rename_i cl b cls2 vals2
    intro acc b0 hacc
    have hstep : evaluate (Formula.bin ['|'] acc cl) m2 = some (b0 || b) := by
      simp [evaluate, is_binary, hacc, hcb]
    simpa using ih (Formula.bin ['|'] acc cl) (b0 || b) hstep

theorem evaluate_foldl_and_forall2 {m2 : Model} :
    ∀ {cls : List Formula} {vals : List Bool},
      List.Forall₂ (fun cl b => evaluate cl m2 = some b) cls vals →
      ∀ (acc : Formula) (b0 : Bool), evaluate acc m2 = some b0 →
      evaluate (cls.foldl (fun a c => .bin ['&'] a c) acc) m2
        = some (vals.foldl (fun x y => x && y) b0) := by
  intro cls vals h
  induction h with
  | nil => intro acc b0 hacc; simpa using hacc
  | cons hcb hF ih =>
    rename_i cl b cls2 vals2
    intro acc b0 hacc
    have hstep : evaluate (Formula.bin ['&'] acc cl) m2 = some (b0 && b) := by
      simp [evaluate, is_binary, hacc, hcb]
    simpa using ih (Formula.bin ['&'] acc cl) (b0 && b) hstep

theorem foldl_or_id :
    ∀ (vals : List Bool) (b0 : Bool),
      vals.foldl (fun x y => x || y) b0 = (b0 || vals.any (fun b => b)) := by
  intro vals
  induction vals with
  | nil => intro b0; simp
  | cons v vt ih => intro b0; simp [List.any_cons, ih, Bool.or_assoc]

theorem foldl_and_id :
    ∀ (vals : List Bool) (b0 : Bool),
      vals.foldl (fun x y => x && y) b0 = (b0 && vals.all (fun b => b)) := by
  intro vals
  induction vals with
  | nil => intro b0; simp
  | cons v vt ih => intro b0; simp [List.all_cons, ih, Bool.and_assoc]



theorem perm_any {l1 l2 : List Str} (h : l1.Perm l2) (p : Str → Bool) :
    l1.any p = l2.any p := by
  rw [Bool.eq_iff_iff]
  simp only [List.any_eq_true]
  exact ⟨fun ⟨x, hx, hp⟩ => ⟨x, h.mem_iff.mp hx, hp⟩,
    fun ⟨x, hx, hp⟩ => ⟨x, h.mem_iff.mpr hx, hp⟩⟩

theorem any_map_id (F : Model × Bool → Bool) (l : List (Model × Bool)) :
    (l.map F).any (fun b => b) = l.any F := by
  induction l with
  | nil => rfl
  | cons q qt ih => simp [List.any_cons, ih]

theorem all_map_id (F : Model × Bool → Bool) (l : List (Model × Bool)) :
    (l.map F).all (fun b => b) = l.all F := by
  induction l with
  | nil => rfl
  | cons q qt ih => simp [List.all_cons, ih]

/-- Function `_synthesize_for_model` on a model `V.zip bs` with variable keys
succeeds, and its clause evaluates, under any total assignment
`V.zip cs`, to whether the two assignments agree on all of `V`. -/
theorem synthesizeForModel_spec {V : List Str} {bs : List Bool}
    (hvar : ∀ v ∈ V, is_variable v = true) (hne : V ≠ [])
    (hlb : V.length = bs.length) :
    ∃ cl, synthesizeForModel (V.zip bs) = some cl ∧
      ∀ (cs : List Bool), V.length = cs.length →
        evaluate cl (V.zip cs) = some (modelsAgree (V.zip bs) (V.zip cs) V) := by
  have hkeys : (V.zip bs).map Prod.fst = V := List.map_fst_zip V bs (le_of_eq hlb)
  have hperm : (sortStr ((V.zip bs).map Prod.fst)).Perm V := by
    rw [hkeys]
    exact sortStr_perm V
  have hsne : sortStr ((V.zip bs).map Prod.fst) ≠ [] := by
    intro h
    have hl := hperm.length_eq
    rw [h] at hl
    cases V with
    | nil => exact hne rfl
    | cons v vt => simp at hl
  obtain ⟨k, ks, hks⟩ := List.exists_cons_of_ne_nil hsne
  have hcl : synthesizeForModel (V.zip bs)
      = some ((ks.map (synthLiteral (V.zip bs))).foldl
          (fun acc l => .bin ['&'] acc l) (synthLiteral (V.zip bs) k)) := by
    simp only [synthesizeForModel, hks]
  refine ⟨_, hcl, ?_⟩
  intro cs hlc
  have hpermk : (k :: ks).Perm V := hks ▸ hperm
  have hlit : ∀ v ∈ k :: ks,
      evaluate (synthLiteral (V.zip bs) v) (V.zip cs)
        = some (mlookup (V.zip bs) v == mlookup (V.zip cs) v) := by
    intro v hv
    have hvV : v ∈ V := hpermk.mem_iff.mp hv
    obtain ⟨b, hb⟩ := mlookup_zip_some hlb hvV
    obtain ⟨c, hc⟩ := mlookup_zip_some hlc hvV
    rw [hb, hc, some_beq_some]
    exact evaluate_synthLiteral (hvar v hvV) hb hc
  have hacc := hlit k (by simp)
  have hfold := evaluate_foldl_and_map (V.zip cs) (synthLiteral (V.zip bs))
    (fun v => mlookup (V.zip bs) v == mlookup (V.zip cs) v) ks
    (synthLiteral (V.zip bs) k)
    (mlookup (V.zip bs) k == mlookup (V.zip cs) k) hacc
    (fun v hv => hlit v (by simp [hv]))
  rw [hfold, foldl_and_eq_all]
  have hallperm := perm_all hpermk
    (fun v => mlookup (V.zip bs) v == mlookup (V.zip cs) v)
  rw [modelsAgree, ← hallperm, List.all_cons]

/-- Function `_synthesize_for_all_except_model` on a model `V.zip bs` with
variable keys succeeds, and its clause evaluates, under any total
assignment `V.zip cs`, to whether the two assignments differ somewhere
on `V`. -/
theorem synthesizeForAllExceptModel_spec {V : List Str} {bs : List Bool}
    (hvar : ∀ v ∈ V, is_variable v = true) (hne : V ≠ [])
    (hlb : V.length = bs.length) :
    ∃ cl, synthesizeForAllExceptModel (V.zip bs) = some cl ∧
      ∀ (cs : List Bool), V.length = cs.length →
        evaluate cl (V.zip cs) = some (!(modelsAgree (V.zip bs) (V.zip cs) V)) := by
  have hkeys : (V.zip bs).map Prod.fst = V := List.map_fst_zip V bs (le_of_eq hlb)
  have hperm : (sortStr ((V.zip bs).map Prod.fst)).Perm V := by
    rw [hkeys]
    exact sortStr_perm V
  have hsne : sortStr ((V.zip bs).map Prod.fst) ≠ [] := by
    intro h
    have hl := hperm.length_eq
    rw [h] at hl
    cases V with
    | nil => exact hne rfl
    | cons v vt => simp at hl
  obtain ⟨k, ks, hks⟩ := List.exists_cons_of_ne_nil hsne
  have hcl : synthesizeForAllExceptModel (V.zip bs)
      = some ((ks.map (synthLiteralNeg (V.zip bs))).foldl
          (fun acc l => .bin ['|'] acc l) (synthLiteralNeg (V.zip bs) k)) := by
    simp only [synthesizeForAllExceptModel, hks]
  refine ⟨_, hcl, ?_⟩
  intro cs hlc
  have hpermk : (k :: ks).Perm V := hks ▸ hperm
  have hlit : ∀ v ∈ k :: ks,
      evaluate (synthLiteralNeg (V.zip bs) v) (V.zip cs)
        = some (!(mlookup (V.zip bs) v == mlookup (V.zip cs) v)) := by
    intro v hv
    have hvV : v ∈ V := hpermk.mem_iff.mp hv
    obtain ⟨b, hb⟩ := mlookup_zip_some hlb hvV
    obtain ⟨c, hc⟩ := mlookup_zip_some hlc hvV
    rw [hb, hc, some_beq_some]
    exact evaluate_synthLiteralNeg (hvar v hvV) hb hc
  have hacc := hlit k (by simp)
  have hfold := evaluate_foldl_or_map (V.zip cs) (synthLiteralNeg (V.zip bs))
    (fun v => !(mlookup (V.zip bs) v == mlookup (V.zip cs) v)) ks
    (synthLiteralNeg (V.zip bs) k)
    (!(mlookup (V.zip bs) k == mlookup (V.zip cs) k)) hacc
    (fun v hv => hlit v (by simp [hv]))
  rw [hfold, foldl_or_eq_any]
  have hanyperm := perm_any hpermk
    (fun v => !(mlookup (V.zip bs) v == mlookup (V.zip cs) v))
  rw [modelsAgree, ← any_not_eq_not_all, ← hanyperm, List.any_cons]

theorem evaluate_clauses_or {m2 : Model} {F : Model × Bool → Bool}
    {tps : List (Model × Bool)} {c : Formula} {cs : List Formula}
    (h : List.Forall₂ (fun q cl => evaluate cl m2 = some (F q)) tps (c :: cs)) :
    evaluate (cs.foldl (fun a cl => .bin ['|'] a cl) c) m2 = some (tps.any F) := by
  cases h with
  | cons hqc htail =>
    rename_i q qs
    have hrest := evaluate_foldl_or_forall2 (forall2_flip_map htail) c (F q) hqc
    rw [hrest, foldl_or_id, any_map_id, List.any_cons]

theorem evaluate_clauses_and {m2 : Model} {F : Model × Bool → Bool}
    {tps : List (Model × Bool)} {c : Formula} {cs : List Formula}
    (h : List.Forall₂ (fun q cl => evaluate cl m2 = some (F q)) tps (c :: cs)) :
    evaluate (cs.foldl (fun a cl => .bin ['&'] a cl) c) m2 = some (tps.all F) := by
  cases h with
  | cons hqc htail =>
    rename_i q qs
    have hrest := evaluate_foldl_and_forall2 (forall2_flip_map htail) c (F q) hqc
    rw [hrest, foldl_and_id, all_map_id, List.all_cons]

theorem evaluate_vandnotv {v0 : Str} {m : Model} {c0 : Bool}
    (hv : is_variable v0 = true) (h : mlookup m v0 = some c0) :
    evaluate (Formula.bin ['&'] (.leaf v0) (.un ['~'] (.leaf v0))) m = some false := by
  have hnc := is_variable_not_constant hv
  simp [evaluate, is_binary, is_unary, hnc, hv, h]

theorem evaluate_vornotv {v0 : Str} {m : Model} {c0 : Bool}
    (hv : is_variable v0 = true) (h : mlookup m v0 = some c0) :
    evaluate (Formula.bin ['|'] (.leaf v0) (.un ['~'] (.leaf v0))) m = some true := by
  have hnc := is_variable_not_constant hv
  simp [evaluate, is_binary, is_unary, hnc, hv, h]


/-- C5: for a non-empty list of distinct variable names and a value row
of length `2**n`, the DNF built by `synthesize` and the CNF built by
`synthesize_cnf` both have exactly the requested truth table over
`all_models`, and when every requested value is false `synthesize`
returns the canonical contradiction `(v&~v)` on the first variable. -/
theorem c5_synthesis_truth_table (v0 : Str) (Vt : List Str) (values : List Bool)
    (hvar : ∀ v ∈ v0 :: Vt, is_variable v = true)
    (hnd : (v0 :: Vt).Nodup)
    (hlen : values.length = 2 ^ (v0 :: Vt).length) :
    (∃ φ, synthesize (v0 :: Vt) values = some φ ∧
      truth_values φ (all_models (v0 :: Vt)) = values.map some) ∧
    (∃ ψ, synthesize_cnf (v0 :: Vt) values = some ψ ∧
      truth_values ψ (all_models (v0 :: Vt)) = values.map some) ∧
    (values.all (fun b => b == false) = true →
      synthesize (v0 :: Vt) values
        = some (.bin ['&'] (.leaf v0) (.un ['~'] (.leaf v0)))) := by
  have hv0 : is_variable v0 = true := hvar v0 (by simp)
  have hmlen : (all_models (v0 :: Vt)).length = values.length := by
    rw [all_models_length, hlen]
  have hndm := all_models_nodup (v0 :: Vt)
  have hshape : ∀ p ∈ (all_models (v0 :: Vt)).zip values,
      ∃ bs : List Bool, (v0 :: Vt).length = bs.length ∧ p.1 = (v0 :: Vt).zip bs :=
    fun p hp => all_models_shape (List.of_mem_zip hp).1
  refine ⟨?_, ?_, ?_⟩
  · -- DNF
    have hcl_some : ∀ p ∈ ((all_models (v0 :: Vt)).zip values).filter (fun p => p.2),
        ((fun p => synthesizeForModel p.1) p).isSome = true := by
      intro p hp
      obtain ⟨bs, hlb, hp1⟩ := hshape p (List.mem_of_mem_filter hp)
      obtain ⟨cl, hcl, _⟩ := synthesizeForModel_spec hvar (by simp) hlb
      simp only [hp1, hcl, Option.isSome_some]
    obtain ⟨cls, hcls, hf⟩ := clausesOpt_forall2 hcl_some
    cases cls with
    | nil =>
      have htp : ((all_models (v0 :: Vt)).zip values).filter (fun p => p.2) = [] :=
        List.forall₂_nil_right_iff.mp hf
      refine ⟨.bin ['&'] (.leaf v0) (.un ['~'] (.leaf v0)), ?_, ?_⟩
      · simp only [synthesize]
        rw [hcls]
      · apply truth_values_of_pointwise hmlen
        intro p hp
        obtain ⟨bs, hlb, hp1⟩ := hshape p hp
        have hval : p.2 = false := by
          have hq := List.filter_eq_nil.mp htp p hp
          simpa using hq
        obtain ⟨c0, hc0⟩ := mlookup_zip_some (v := v0) hlb (by simp)
        rw [hp1, hval]
        exact evaluate_vandnotv hv0 hc0
    | cons c cs =>
      refine ⟨cs.foldl (fun a cl => .bin ['|'] a cl) c, ?_, ?_⟩
      · simp only [synthesize]
        rw [hcls]
      · apply truth_values_of_pointwise hmlen
        intro p hp
        obtain ⟨csb, hlc, hp1⟩ := hshape p hp
        have hfS : List.Forall₂
            (fun q cl => evaluate cl p.1 = some (modelsAgree q.1 p.1 (v0 :: Vt)))
            (((all_models (v0 :: Vt)).zip values).filter (fun q => q.2)) (c :: cs) := by
          refine forall2_imp_mem hf ?_
          intro q cl hq hqcl
          obtain ⟨bsq, hlq, hq1⟩ := hshape q (List.mem_of_mem_filter hq)
          obtain ⟨cl2, hcl2, heval⟩ := synthesizeForModel_spec hvar (by simp) hlq
          rw [hq1] at hqcl
          rw [hqcl] at hcl2
          obtain rfl : cl = cl2 := by simpa using hcl2
          rw [hq1, hp1]
          exact heval csb hlc
        have heval := evaluate_clauses_or hfS
        rw [heval]
        have hany : (((all_models (v0 :: Vt)).zip values).filter (fun q => q.2)).any
            (fun q => modelsAgree q.1 p.1 (v0 :: Vt)) = p.2 := by
          cases hval : p.2 with
          | true =>
            refine List.any_eq_true.mpr ⟨p, ?_, modelsAgree_self p.1 (v0 :: Vt)⟩
            exact List.mem_filter.mpr ⟨hp, by simp [hval]⟩
          | false =>
            cases hgoal : (((all_models (v0 :: Vt)).zip values).filter (fun q => q.2)).any
                (fun q => modelsAgree q.1 p.1 (v0 :: Vt)) with
            | false => rfl
            | true =>
              exfalso
              obtain ⟨q, hqmem, hqagree⟩ := List.any_eq_true.mp hgoal
              have hq2 : q.2 = true := by
                simpa using (List.mem_filter.mp hqmem).2
              obtain ⟨bsq, hlq, hq1⟩ := hshape q (List.mem_of_mem_filter hqmem)
              rw [hq1, hp1] at hqagree
              have hbs : bsq = csb := (modelsAgree_iff_eq hnd hlq hlc).mp hqagree
              have hq1m : q.1 = p.1 := by rw [hq1, hp1, hbs]
              have hqtrue : (p.1, true) ∈ (all_models (v0 :: Vt)).zip values := by
                have hqp : q = (p.1, true) := Prod.ext_iff.mpr ⟨hq1m, hq2⟩
                rw [← hqp]
                exact List.mem_of_mem_filter hqmem
              have hpfalse : (p.1, false) ∈ (all_models (v0 :: Vt)).zip values := by
                have hpp : p = (p.1, false) := Prod.ext_iff.mpr ⟨rfl, hval⟩
                rw [← hpp]
                exact hp
              have := zip_fst_unique hndm hqtrue hpfalse
              simp at this
        rw [hany]
  · -- CNF
    have hcl_some : ∀ p ∈ ((all_models (v0 :: Vt)).zip values).filter (fun p => !p.2),
        ((fun p => synthesizeForAllExceptModel p.1) p).isSome = true := by
      intro p hp
      obtain ⟨bs, hlb, hp1⟩ := hshape p (List.mem_of_mem_filter hp)
      obtain ⟨cl, hcl, _⟩ := synthesizeForAllExceptModel_spec hvar (by simp) hlb
      simp only [hp1, hcl, Option.isSome_some]
    obtain ⟨cls, hcls, hf⟩ := clausesOpt_forall2 hcl_some
    cases cls with
    | nil =>
      have htp : ((all_models (v0 :: Vt)).zip values).filter (fun p => !p.2) = [] :=
        List.forall₂_nil_right_iff.mp hf
      refine ⟨.bin ['|'] (.leaf v0) (.un ['~'] (.leaf v0)), ?_, ?_⟩
      · simp only [synthesize_cnf]
        rw [hcls]
      · apply truth_values_of_pointwise hmlen
        intro p hp
        obtain ⟨bs, hlb, hp1⟩ := hshape p hp
        have hval : p.2 = true := by
          have hq := List.filter_eq_nil.mp htp p hp
          simpa using hq
        obtain ⟨c0, hc0⟩ := mlookup_zip_some (v := v0) hlb (by simp)
        rw [hp1, hval]
        exact evaluate_vornotv hv0 hc0
    | cons c cs =>
      refine ⟨cs.foldl (fun a cl => .bin ['&'] a cl) c, ?_, ?_⟩
      · simp only [synthesize_cnf]
        rw [hcls]
      · apply truth_values_of_pointwise hmlen
        intro p hp
        obtain ⟨csb, hlc, hp1⟩ := hshape p hp
        have hfS : List.Forall₂
            (fun q cl => evaluate cl p.1 = some (!(modelsAgree q.1 p.1 (v0 :: Vt))))
            (((all_models (v0 :: Vt)).zip values).filter (fun q => !q.2)) (c :: cs) := by
          refine forall2_imp_mem hf ?_
          intro q cl hq hqcl
          obtain ⟨bsq, hlq, hq1⟩ := hshape q (List.mem_of_mem_filter hq)
          obtain ⟨cl2, hcl2, heval⟩ := synthesizeForAllExceptModel_spec hvar (by simp) hlq
          rw [hq1] at hqcl
          rw [hqcl] at hcl2
          obtain rfl : cl = cl2 := by simpa using hcl2
          rw [hq1, hp1]
          exact heval csb hlc
        have heval := evaluate_clauses_and hfS
        rw [heval]
        have hall : (((all_models (v0 :: Vt)).zip values).filter (fun q => !q.2)).all
            (fun q => !(modelsAgree q.1 p.1 (v0 :: Vt))) = p.2 := by
          cases hval : p.2 with
          | true =>
            refine List.all_eq_true.mpr ?_
            intro q hqmem
            have hq2 : q.2 = false := by
              have := (List.mem_filter.mp hqmem).2
              simpa using this
            obtain ⟨bsq, hlq, hq1⟩ := hshape q (List.mem_of_mem_filter hqmem)
            cases hagree : modelsAgree q.1 p.1 (v0 :: Vt) with
            | false => rfl
            | true =>
              exfalso
              rw [hq1, hp1] at hagree
              have hbs : bsq = csb := (modelsAgree_iff_eq hnd hlq hlc).mp hagree
              have hq1m : q.1 = p.1 := by rw [hq1, hp1, hbs]
              have hqfalse : (p.1, false) ∈ (all_models (v0 :: Vt)).zip values := by
                have hqp : q = (p.1, false) := Prod.ext_iff.mpr ⟨hq1m, hq2⟩
                rw [← hqp]
                exact List.mem_of_mem_filter hqmem
              have hptrue : (p.1, true) ∈ (all_models (v0 :: Vt)).zip values := by
                have hpp : p = (p.1, true) := Prod.ext_iff.mpr ⟨rfl, hval⟩
                rw [← hpp]
                exact hp
              have := zip_fst_unique hndm hqfalse hptrue
              simp at this
          | false =>
            cases hgoal : (((all_models (v0 :: Vt)).zip values).filter (fun q => !q.2)).all
                (fun q => !(modelsAgree q.1 p.1 (v0 :: Vt))) with
            | false => rfl
            | true =>
              exfalso
              have hpmem : p ∈ ((all_models (v0 :: Vt)).zip values).filter (fun q => !q.2) :=
                List.mem_filter.mpr ⟨hp, by simp [hval]⟩
              have := List.all_eq_true.mp hgoal p hpmem
              rw [modelsAgree_self] at this
              simp at this
        rw [hall]
  · -- all-false fallback
    intro hall
    have hfilter : ((all_models (v0 :: Vt)).zip values).filter (fun p => p.2) = [] := by
      rw [List.filter_eq_nil]
      intro p hp
      have hv : p.2 ∈ values := (List.of_mem_zip hp).2
      have hfalse := List.all_eq_true.mp hall _ hv
      simp at hfalse
      simp [hfalse]
    simp only [synthesize]
    rw [hfilter]
    rfl

/-- Witness for C5 at `V = [p, q]` with the XOR value row. -/
theorem c5_witness :
    (∃ φ, synthesize [['p'], ['q']] [false, true, true, false] = some φ ∧
      truth_values φ (all_models [['p'], ['q']])
        = [false, true, true, false].map some) ∧
    (∃ ψ, synthesize_cnf [['p'], ['q']] [false, true, true, false] = some ψ ∧
      truth_values ψ (all_models [['p'], ['q']])
        = [false, true, true, false].map some) ∧
    ([false, true, true, false].all (fun b => b == false) = true →
      synthesize [['p'], ['q']] [false, true, true, false]
        = some (.bin ['&'] (.leaf ['p']) (.un ['~'] (.leaf ['p'])))) :=
  c5_synthesis_truth_table ['p'] [['q']] [false, true, true, false]
    (by decide) (by decide) (by decide)

end Props
